import Mathlib

/-!
Verification of the permission- and accessibility-tracking core of prusti-dev
against its natural-language specification.

The development shallowly embeds three source files:
* `analysis/src/domains/definitely_accessible/analysis.rs`
  (the accessibility combinator `run_analysis` / `compute_accessible_state` /
  `remove_place_from_set`),
* `prusti-viper/src/encoder/foldunfold/semantics.rs`
  (the permission transfer engine `apply_on_state`),
* `src/specifications.rs` (`SpecType::try_from`).

Support code that the three files call but that is outside the given sources
(the place algebra of `mir_utils`, the `State` bulk operations of
`foldunfold/state.rs`, the pointwise-state lookups) is modelled from the
specification; each such definition carries a doc comment starting with
`Modelled from the spec:`.
-/

namespace PrustiModel

/-! ## Part 1: mir places and the place algebra used by the accessibility analysis -/

/-- A mir place: a base local variable (numbered) plus an ordered list of
projections, here numbered field selections.  Mirrors `mir::Place`. -/
structure MirPlace where
  base : Nat
  proj : List Nat
deriving DecidableEq, Repr

/-- Extend a place by one projection. -/
def MirPlace.push (p : MirPlace) (i : Nat) : MirPlace :=
  ⟨p.base, p.proj ++ [i]⟩

/-- Modelled from the spec: the structural ancestor check `is_prefix` of
`mir_utils` (the file is not under the given sources).  `isPfxOf a b` holds
when `a` denotes an ancestor storage region of `b`, i.e. `b` equals `a`
extended by zero or more projections.  The argument convention matches the
comments at the call sites inside `remove_place_from_set`. -/
def MirPlace.isPfxOf (a b : MirPlace) : Bool :=
  a.base == b.base && a.proj.isPrefixOf b.proj

/-- Proper ancestor: ancestor and distinct. -/
def MirPlace.isProperPfxOf (a b : MirPlace) : Bool :=
  a.isPfxOf b && a != b

/-- Modelled from the spec: the recursion of `expand` (from `mir_utils`, not
under the given sources).  `fieldCount p` is the number of sibling projections
of the type at node `p` (the cfg/type context).  The function walks the given
remaining projection path; at each level it adds every sibling of the
projection taken and continues unpacking only along the path, so the branch
holding the excluded descendant is never added. -/
def expandRec (fieldCount : MirPlace → Nat) (place : MirPlace) :
    List Nat → List MirPlace
  | [] => []
  | j :: rest =>
    ((List.range (fieldCount place)).filter (fun i => i ≠ j)).map place.push
      ++ expandRec fieldCount (place.push j) rest

/-- Modelled from the spec: `expand(cfg_context, place, excluded_descendant)`
of `mir_utils`.  Requires `place` to be a prefix of `excluded_descendant`; the
degenerate equal case yields the empty set. -/
def expand (fieldCount : MirPlace → Nat) (place excluded : MirPlace) :
    List MirPlace :=
  expandRec fieldCount place (excluded.proj.drop place.proj.length)

/-- From `remove_place_from_set` in
`analysis/src/domains/definitely_accessible/analysis.rs`: remove all
extensions of a place from a set, unpacking prefixes as much as needed.  The
per-member for-loop inserting into a fresh set is rendered as a `biUnion`. -/
def remove_place_from_set (fieldCount : MirPlace → Nat) (to_remove : MirPlace)
    (set : Finset MirPlace) : Finset MirPlace :=
  set.biUnion fun old_place =>
    if old_place.isPfxOf to_remove then
      (expand fieldCount old_place to_remove).toFinset
    else if to_remove.isPfxOf old_place then ∅
    else {old_place}

/-- The spec wording of `remove(target, set)`, used to compare against the
source order of the branches: first drop members the target covers, then
expand proper prefixes of the target, else keep. -/
def remove_place_spec (fieldCount : MirPlace → Nat) (target : MirPlace)
    (set : Finset MirPlace) : Finset MirPlace :=
  set.biUnion fun p =>
    if target.isPfxOf p then ∅
    else if p.isPfxOf target then (expand fieldCount p target).toFinset
    else {p}

/-! ## Part 2: the accessibility combinator (`DefinitelyAccessibleAnalysis`) -/

/-- The result at one program point: the pair of place sets produced by
`compute_accessible_state`.  Mirrors `DefinitelyAccessibleState`. -/
structure DefinitelyAccessibleState where
  definitely_accessible : Finset MirPlace
  definitely_owned : Finset MirPlace
deriving DecidableEq

/-- The borrow facts at one program point.  The two components mirror
`get_maybe_mut_borrowed` and `get_maybe_shared_borrowed`; they are kept as
lists so that the iteration order of the source hash-set loop is explicit. -/
structure MaybeBorrowedState where
  maybe_mut_borrowed : List MirPlace
  maybe_shared_borrowed : List MirPlace

/-- From `compute_accessible_state`: subtract the maybe-borrowed places from
the definitely-initialized ones, sequentially over each borrowed list. -/
def compute_accessible_state (fieldCount : MirPlace → Nat)
    (def_init : Finset MirPlace) (borrowed : MaybeBorrowedState) :
    DefinitelyAccessibleState :=
  let definitely_accessible :=
    borrowed.maybe_mut_borrowed.foldl
      (fun s p => remove_place_from_set fieldCount p s) def_init
  let definitely_owned :=
    borrowed.maybe_shared_borrowed.foldl
      (fun s p => remove_place_from_set fieldCount p s) definitely_accessible
  ⟨definitely_accessible, definitely_owned⟩

/-- A set of places with no member a proper ancestor of another member. -/
def pfxFreeSet (s : Finset MirPlace) : Prop :=
  ∀ p ∈ s, ∀ q ∈ s, p.isProperPfxOf q = false

instance (s : Finset MirPlace) : Decidable (pfxFreeSet s) :=
  inferInstanceAs (Decidable (∀ p ∈ s, ∀ q ∈ s, p.isProperPfxOf q = false))

/-- Modelled from the spec: the invariant checked by
`DefinitelyAccessibleState::check_invariant` (the state file is not under the
given sources): `definitely_owned` is a subset of `definitely_accessible` and
both sets are prefix-free. -/
def DefinitelyAccessibleState.invariantHolds (st : DefinitelyAccessibleState) :
    Prop :=
  st.definitely_owned ⊆ st.definitely_accessible ∧
    pfxFreeSet st.definitely_accessible ∧ pfxFreeSet st.definitely_owned

instance (st : DefinitelyAccessibleState) : Decidable st.invariantHolds :=
  inferInstanceAs (Decidable (_ ∧ _ ∧ _))

/-- Mirrors `mir::Location`: a block index and a statement index inside it. -/
structure Location where
  block : Nat
  statement_index : Nat
deriving DecidableEq

/-- A program point of the pointwise result: before a statement (the index one
past the last statement is the terminator position), or on the edge from a
terminator to a named successor block. -/
inductive ProgramPoint
  | before (loc : Location)
  | afterBlock (block : Nat) (successor : Nat)
deriving DecidableEq

/-- One basic block: its statement count and the successors of its
terminator. -/
structure BlockData where
  statementCount : Nat
  successors : List Nat
deriving DecidableEq

/-- The procedure body: its list of basic blocks, indexed by position. -/
structure MirBody where
  blocks : List BlockData

/-- Modelled from the spec: the externally supplied fact lookups consumed by
`run_analysis`.  `lookup_before` may lack a result for a location, and
`lookup_after_block` may lack a block or, inside a block result, a successor
entry — the per-successor maps are association lists. -/
structure AnalysisFacts where
  def_init_before : Location → Option (Finset MirPlace)
  borrowed_before : Location → Option MaybeBorrowedState
  def_init_after_block : Nat → Option (List (Nat × Finset MirPlace))
  borrowed_after_block : Nat → Option (List (Nat × MaybeBorrowedState))

/-- Render a location for error messages. -/
def locMsg (l : Location) : String :=
  "block " ++ toString l.block ++ " statement " ++ toString l.statement_index

/-- The loop of `run_analysis` over the statement indices of one block:
look up both before-facts (a missing fact is a fatal error naming the
location), compute the accessible state, check the invariant (a violation is a
fatal error naming the location), and record the state before the location. -/
def processBeforePoints (fieldCount : MirPlace → Nat) (facts : AnalysisFacts)
    (block : Nat) :
    List Nat → Except String (List (ProgramPoint × DefinitelyAccessibleState))
  | [] => Except.ok []
  | i :: rest =>
    let loc : Location := ⟨block, i⟩
    match facts.def_init_before loc with
    | none => Except.error ("no def_init state before " ++ locMsg loc)
    | some def_init =>
      match facts.borrowed_before loc with
      | none => Except.error ("no borrowed state before " ++ locMsg loc)
      | some borrowed =>
        let st := compute_accessible_state fieldCount def_init borrowed
        if st.invariantHolds then
          (processBeforePoints fieldCount facts block rest).map
            (fun tail => (ProgramPoint.before loc, st) :: tail)
        else Except.error ("invariant violated at " ++ locMsg loc)

/-- The loop of `run_analysis` over the successors of one block terminator:
look up the per-successor facts (a missing entry is a fatal error naming the
edge), compute, check the invariant, and record the state on the edge. -/
def processEdges (fieldCount : MirPlace → Nat) (block : Nat)
    (def_init_ab : List (Nat × Finset MirPlace))
    (borrowed_ab : List (Nat × MaybeBorrowedState)) :
    List Nat → Except String (List (ProgramPoint × DefinitelyAccessibleState))
  | [] => Except.ok []
  | s :: rest =>
    match def_init_ab.lookup s with
    | none =>
      Except.error ("no def_init state from block " ++ toString block
        ++ " to block " ++ toString s)
    | some def_init =>
      match borrowed_ab.lookup s with
      | none =>
        Except.error ("no borrowed state from block " ++ toString block
          ++ " to block " ++ toString s)
      | some borrowed =>
        let st := compute_accessible_state fieldCount def_init borrowed
        if st.invariantHolds then
          (processEdges fieldCount block def_init_ab borrowed_ab rest).map
            (fun tail => (ProgramPoint.afterBlock block s, st) :: tail)
        else
          Except.error ("invariant violated on edge from block "
            ++ toString block ++ " to block " ++ toString s)

/-- The per-block body of `run_analysis`: the before-statement loop, then the
two after-block lookups (a missing one is a fatal error naming the block),
then the successor-edge loop. -/
def processBlock (fieldCount : MirPlace → Nat) (facts : AnalysisFacts)
    (block : Nat) (bd : BlockData) :
    Except String (List (ProgramPoint × DefinitelyAccessibleState)) :=
  match processBeforePoints fieldCount facts block
      (List.range (bd.statementCount + 1)) with
  | Except.error e => Except.error e
  | Except.ok befores =>
    match facts.def_init_after_block block with
    | none => Except.error ("no def_init state after block " ++ toString block)
    | some dia =>
      match facts.borrowed_after_block block with
      | none =>
        Except.error ("no borrowed state after block " ++ toString block)
      | some ba =>
        (processEdges fieldCount block dia ba bd.successors).map
          (fun edges => befores ++ edges)

/-- The outer loop of `run_analysis` over the enumerated blocks. -/
def runBlocks (fieldCount : MirPlace → Nat) (facts : AnalysisFacts) :
    List (Nat × BlockData) →
    Except String (List (ProgramPoint × DefinitelyAccessibleState))
  | [] => Except.ok []
  | (b, bd) :: rest =>
    match processBlock fieldCount facts b bd with
    | Except.error e => Except.error e
    | Except.ok states =>
      (runBlocks fieldCount facts rest).map (fun tail => states ++ tail)

/-- From `run_analysis`: compute the accessible state before every statement
of every block (terminator position included) and on every terminator
successor edge; any missing external fact or invariant violation is a fatal
error naming the offending program point.  The panics of the source become
`Except.error`. -/
def run_analysis (fieldCount : MirPlace → Nat) (facts : AnalysisFacts)
    (body : MirBody) :
    Except String (List (ProgramPoint × DefinitelyAccessibleState)) :=
  runBlocks fieldCount facts body.blocks.enum

/-- All locations whose before-facts `run_analysis` requires. -/
def requiredLocations (body : MirBody) : List Location :=
  body.blocks.enum.flatMap fun bbd =>
    (List.range (bbd.2.statementCount + 1)).map fun i => ⟨bbd.1, i⟩

/-! ## Part 3: the permission transfer engine (`foldunfold/semantics.rs`) -/

/-- A vir place: a base local variable plus field-name projections.  Mirrors
`vir::Place`. -/
structure VPlace where
  base : String
  proj : List String
deriving DecidableEq, Repr

/-- `place.is_base()`: a whole variable, no projections. -/
def VPlace.is_base (p : VPlace) : Bool :=
  p.proj.isEmpty

/-- `place.base()`: the base local variable of the place. -/
def VPlace.baseVar (p : VPlace) : String :=
  p.base

/-- `p.has_prefix(&q)` of `vir::Place`: `q` is an ancestor of `p`, i.e. `p`
equals `q` extended by zero or more projections. -/
def VPlace.hasPfx (p q : VPlace) : Bool :=
  q.base == p.base && q.proj.isPrefixOf p.proj

/-- `p.has_proper_prefix(&q)`: ancestor and distinct. -/
def VPlace.hasProperPfx (p q : VPlace) : Bool :=
  p.hasPfx q && p != q

/-- `p.replace_prefix(&q, r)`: rewrite the leading occurrence of ancestor `q`
in `p` to `r`, keeping the remaining projections. -/
def VPlace.replacePfx (p q r : VPlace) : VPlace :=
  ⟨r.base, r.proj ++ p.proj.drop q.proj.length⟩

/-- `p.all_proper_prefixes()`: every strict ancestor of `p`, from the base
variable up to the immediate parent. -/
def VPlace.allProperPfxs (p : VPlace) : List VPlace :=
  (List.range p.proj.length).map fun k => ⟨p.base, p.proj.take k⟩

/-- A vir type, as far as the engine inspects it: `is_ref`/`typed_ref_name`
distinguish predicate-carrying reference types. -/
inductive VirTy
  | int
  | bool
  | typedRef (name : String)
deriving DecidableEq

/-- `Type::is_ref()`. -/
def VirTy.is_ref : VirTy → Bool
  | .typedRef _ => true
  | _ => false

/-- `Place::typed_ref_name()`: the predicate name carried by a reference
type. -/
def VirTy.typed_ref_name : VirTy → Option String
  | .typedRef n => some n
  | _ => none

/-- A permission: access or predicate, over a place with a fractional
amount.  Mirrors `Perm` of `foldunfold/perm.rs`. -/
inductive Perm
  | acc (place : VPlace) (frac : ℚ)
  | pred (place : VPlace) (frac : ℚ)
deriving DecidableEq

/-- `Perm::is_acc`. -/
def Perm.is_acc : Perm → Bool
  | .acc _ _ => true
  | .pred _ _ => false

/-- `Perm::get_place`. -/
def Perm.get_place : Perm → VPlace
  | .acc p _ => p
  | .pred p _ => p

/-- `Perm::map_place`. -/
def Perm.map_place (f : VPlace → VPlace) : Perm → Perm
  | .acc p q => .acc (f p) q
  | .pred p q => .pred (f p) q

/-- `perm * frac`: scale the fractional amount. -/
def Perm.scaleFrac : Perm → ℚ → Perm
  | .acc p q, f => .acc p (q * f)
  | .pred p q, f => .pred p (q * f)

/-- A permission map (access map or predicate map): place keys with
fractional amounts, rendered extensionally as a finite set of entries.
The source `HashMap` is functional on keys; every operation below preserves
that. -/
abbrev PermMap := Finset (VPlace × ℚ)

/-- Modelled from the spec: key membership in a permission map (the map query
of `foldunfold/state.rs`, which is not under the given sources). -/
def mapContains (m : PermMap) (p : VPlace) : Prop :=
  ∃ e ∈ m, e.1 = p

instance (m : PermMap) (p : VPlace) : Decidable (mapContains m p) :=
  inferInstanceAs (Decidable (∃ e ∈ m, e.1 = p))

/-- Modelled from the spec: remove the entry of one key. -/
def mapRemoveKey (m : PermMap) (p : VPlace) : PermMap :=
  m.filter fun e => e.1 ≠ p

/-- Modelled from the spec: insert with hash-map semantics — an existing entry
of the same key is overwritten. -/
def mapInsert (m : PermMap) (p : VPlace) (f : ℚ) : PermMap :=
  mapRemoveKey m p ∪ {(p, f)}

/-- Modelled from the spec: bulk removal of every entry whose place satisfies
the filter (the `remove_*_matching_place` family of `state.rs`). -/
def mapRemoveWhere (m : PermMap) (φ : VPlace → Bool) : PermMap :=
  m.filter fun e => φ e.1 = false

/-- The entries whose place satisfies the filter (the source iterator
`m.iter().filter(...)`). -/
def mapSelect (m : PermMap) (φ : VPlace → Bool) : PermMap :=
  m.filter fun e => φ e.1 = true

/-- Modelled from the spec: bulk insertion of a batch of entries with
hash-map overwrite semantics (the `insert_all_*` family of `state.rs`); batch
entries win over existing entries of the same key. -/
def mapInsertAll (m adds : PermMap) : PermMap :=
  (m.filter fun e => ¬ ∃ a ∈ adds, a.1 = e.1) ∪ adds

/-- The permission state threaded through the engine: access map, predicate
map and moved set.  Mirrors `State` of `foldunfold/state.rs`; the frame stack
is not needed by any statement modelled here. -/
structure State where
  acc : PermMap
  pred : PermMap
  moved : Finset VPlace
deriving DecidableEq

/-- Modelled from the spec: `state.contains_pred(place)`. -/
def State.contains_pred (s : State) (p : VPlace) : Prop :=
  mapContains s.pred p

instance (s : State) (p : VPlace) : Decidable (s.contains_pred p) :=
  inferInstanceAs (Decidable (mapContains s.pred p))

/-- Modelled from the spec: `state.contains_perm(perm)` — the respective map
holds an entry for the permission place. -/
def State.contains_perm (s : State) : Perm → Prop
  | .acc p _ => mapContains s.acc p
  | .pred p _ => mapContains s.pred p

instance (s : State) (pm : Perm) : Decidable (s.contains_perm pm) :=
  match pm with
  | .acc p _ => inferInstanceAs (Decidable (mapContains s.acc p))
  | .pred p _ => inferInstanceAs (Decidable (mapContains s.pred p))

/-- Modelled from the spec: `state.is_prefix_of_some_moved(place)` — some
moved place lies at or inside `place`. -/
def State.pfxOfSomeMoved (s : State) (p : VPlace) : Prop :=
  ∃ m ∈ s.moved, m.hasPfx p = true

instance (s : State) (p : VPlace) : Decidable (s.pfxOfSomeMoved p) :=
  inferInstanceAs (Decidable (∃ m ∈ s.moved, m.hasPfx p = true))

/-- Modelled from the spec: `state.is_proper_prefix_of_some_acc(place)` —
some access permission lies strictly inside `place`. -/
def State.properPfxOfSomeAcc (s : State) (p : VPlace) : Prop :=
  ∃ e ∈ s.acc, e.1.hasProperPfx p = true

instance (s : State) (p : VPlace) : Decidable (s.properPfxOfSomeAcc p) :=
  inferInstanceAs (Decidable (∃ e ∈ s.acc, e.1.hasProperPfx p = true))

/-- Modelled from the spec: `state.is_prefix_of_some_pred(place)` — some
predicate permission lies at or inside `place`. -/
def State.pfxOfSomePred (s : State) (p : VPlace) : Prop :=
  ∃ e ∈ s.pred, e.1.hasPfx p = true

instance (s : State) (p : VPlace) : Decidable (s.pfxOfSomePred p) :=
  inferInstanceAs (Decidable (∃ e ∈ s.pred, e.1.hasPfx p = true))

/-- Modelled from the spec: `state.insert_moved(place)`. -/
def State.insert_moved (s : State) (p : VPlace) : State :=
  { s with moved := insert p s.moved }

/-- Modelled from the spec: `state.remove_moved_matching(filter)`. -/
def State.remove_moved_matching (s : State) (φ : VPlace → Bool) : State :=
  { s with moved := s.moved.filter fun m => φ m = false }

/-- Modelled from the spec: `state.remove_pred_matching_place(filter)`. -/
def State.remove_pred_matching_place (s : State) (φ : VPlace → Bool) : State :=
  { s with pred := mapRemoveWhere s.pred φ }

/-- Modelled from the spec: `state.remove_acc_matching_place(filter)`. -/
def State.remove_acc_matching_place (s : State) (φ : VPlace → Bool) : State :=
  { s with acc := mapRemoveWhere s.acc φ }

/-- Modelled from the spec: `state.insert_all_acc(entries)`. -/
def State.insert_all_acc (s : State) (adds : PermMap) : State :=
  { s with acc := mapInsertAll s.acc adds }

/-- Modelled from the spec: `state.insert_all_pred(entries)`. -/
def State.insert_all_pred (s : State) (adds : PermMap) : State :=
  { s with pred := mapInsertAll s.pred adds }

/-- Modelled from the spec: `state.insert_pred(place, frac)`. -/
def State.insert_pred (s : State) (p : VPlace) (f : ℚ) : State :=
  { s with pred := mapInsert s.pred p f }

/-- Modelled from the spec: `state.remove_pred(place, frac)` — drop the
predicate entry of the place (the fraction names the amount being removed). -/
def State.remove_pred (s : State) (p : VPlace) (_f : ℚ) : State :=
  { s with pred := mapRemoveKey s.pred p }

/-- Modelled from the spec: insert one permission into the respective map. -/
def State.insert_perm (s : State) : Perm → State
  | .acc p f => { s with acc := mapInsert s.acc p f }
  | .pred p f => { s with pred := mapInsert s.pred p f }

/-- Modelled from the spec: `state.insert_all_perms(iter)`. -/
def State.insert_all_perms (s : State) (l : List Perm) : State :=
  l.foldl State.insert_perm s

/-- Modelled from the spec: remove one permission from the respective map. -/
def State.remove_perm (s : State) : Perm → State
  | .acc p _ => { s with acc := mapRemoveKey s.acc p }
  | .pred p _ => { s with pred := mapRemoveKey s.pred p }

/-- Modelled from the spec: `state.remove_all_perms(iter)`. -/
def State.remove_all_perms (s : State) (l : List Perm) : State :=
  l.foldl State.remove_perm s

/-- Modelled from the spec: `state.remove_matching(place_filter)` — bulk
removal over both permission maps by place filter. -/
def State.remove_matching (s : State) (φ : VPlace → Bool) : State :=
  { s with acc := mapRemoveWhere s.acc φ, pred := mapRemoveWhere s.pred φ }

/-- Modelled from the spec: one entry of the predicate table — the formal
self place and the body permission set (`vir::Predicate` together with its
`get_permissions`, not under the given sources). -/
structure VirPred where
  selfPlace : VPlace
  body : List Perm
deriving DecidableEq

/-- Assignment kinds of `vir::AssignKind`. -/
inductive AssignKind
  | copy
  | move
  | mutableBorrow
deriving DecidableEq

/-- The right-hand side of an assignment, as far as the engine matches on it:
a place, or some other expression. -/
inductive VExpr
  | place (p : VPlace)
  | other
deriving DecidableEq

/-- The statements whose transfer function the claims exercise.  Mirrors the
corresponding `vir::Stmt` constructors; `Fold`/`Unfold` carry their single
place argument directly. -/
inductive Stmt
  | comment (text : String)
  | methodCall (targets : List String)
  | assign (lhs : VPlace) (rhs : VExpr) (kind : AssignKind)
  | fold (predName : String) (place : VPlace) (frac : ℚ)
  | unfold (predName : String) (place : VPlace) (frac : ℚ)
  | havoc
  | expireBorrow (lhs rhs : VPlace)
deriving DecidableEq

/-- The step-1 part of the `Assign` arm of `apply_on_state`: the `match kind`
that checks the Move/MutableBorrow preconditions (rhs is a ref-typed place,
no moved path inside rhs, no predicate on a strict ancestor of rhs) and, for
Move, marks rhs moved.  A failed source `assert!`/`unreachable!` is `none`. -/
def assignMarkRhs (tyOf : VPlace → VirTy) (kind : AssignKind) (rhs : VExpr)
    (s : State) : Option State :=
  match kind, rhs with
  | .move, .place rhs_place =>
    if (tyOf rhs_place).is_ref = true then
      if ¬ s.pfxOfSomeMoved rhs_place then
        if ∀ q ∈ rhs_place.allProperPfxs, ¬ s.contains_pred q then
          some (s.insert_moved rhs_place)
        else none
      else none
    else none
  | .move, .other => none
  | .mutableBorrow, .place rhs_place =>
    if (tyOf rhs_place).is_ref = true then
      if ¬ s.pfxOfSomeMoved rhs_place then
        if ∀ q ∈ rhs_place.allProperPfxs, ¬ s.contains_pred q then
          some s
        else none
      else none
    else none
  | .mutableBorrow, .other => none
  | .copy, _ => some s

/-- The step-3 part of the `Assign` arm: the `match rhs` that, for a ref-typed
place rhs (move or mutable borrow only), drops the rhs predicate region and
the strict rhs access descendants, clears everything rooted at lhs, and
re-creates the lhs permissions as the rhs-rooted permissions of the original
state with the prefix rewritten rhs→lhs; any other rhs requires a copy. -/
def assignMoveRhsToLhs (tyOf : VPlace → VirTy) (lhs : VPlace) (rhs : VExpr)
    (kind : AssignKind) (original_state s : State) : Option State :=
  match rhs with
  | .place rhs_place =>
    if (tyOf rhs_place).is_ref = true then
      match kind with
      | .copy => none
      | _ =>
        let s := s.remove_pred_matching_place fun p => p.hasPfx rhs_place
        let s := s.remove_acc_matching_place fun p => p.hasProperPfx rhs_place
        let s := s.remove_pred_matching_place fun p => p.hasPfx lhs
        let s := s.remove_acc_matching_place fun p => p.hasPfx lhs
        let new_acc :=
          (mapSelect original_state.acc fun p => p.hasPfx rhs_place).image
            fun e => (e.1.replacePfx rhs_place lhs, e.2)
        let s := s.insert_all_acc new_acc
        let new_pred :=
          (mapSelect original_state.pred fun p => p.hasPfx rhs_place).image
            fun e => (e.1.replacePfx rhs_place lhs, e.2)
        some (s.insert_all_pred new_pred)
    else
      match kind with
      | .copy => some s
      | _ => none
  | .other =>
    match kind with
    | .copy => some s
    | _ => none

/-- From `vir::Stmt::apply_on_state` of `foldunfold/semantics.rs`: the
transfer function of one statement over the permission state and the dropped
accumulator.  Every source `assert!`, `unreachable!` or failed `unwrap`
becomes `none`. -/
def Stmt.apply_on_state (tyOf : VPlace → VirTy)
    (predicates : String → Option VirPred) :
    Stmt → State → Finset Perm → Option (State × Finset Perm)
  | .comment _, s, dropped => some (s, dropped)
  | .methodCall targets, s, dropped =>
    let dropped := dropped ∪
      ((mapSelect s.pred fun p => targets.contains p.baseVar).image
        fun e => Perm.pred e.1 e.2)
    let dropped := dropped ∪
      ((mapSelect s.acc fun p => !p.is_base && targets.contains p.baseVar).image
        fun e => Perm.acc e.1 e.2)
    let s := s.remove_moved_matching fun p => targets.contains p.baseVar
    let s := s.remove_pred_matching_place fun p => targets.contains p.baseVar
    let s := s.remove_acc_matching_place
      fun p => !p.is_base && targets.contains p.baseVar
    some (s, dropped)
  | .assign lhs rhs kind, s, dropped =>
    let original_state := s
    (assignMarkRhs tyOf kind rhs s).bind fun s =>
      let dropped := dropped ∪
        ((mapSelect s.pred fun p => p.hasPfx lhs).image
          fun e => Perm.pred e.1 e.2)
      let dropped := dropped ∪
        ((mapSelect s.acc fun p => p.hasProperPfx lhs).image
          fun e => Perm.acc e.1 e.2)
      let s := s.remove_moved_matching fun p => p.hasPfx lhs
      let s := s.remove_pred_matching_place fun p => p.hasPfx lhs
      let s := s.remove_acc_matching_place fun p => p.hasProperPfx lhs
      (assignMoveRhsToLhs tyOf lhs rhs kind original_state s).map
        fun s => (s, dropped)
  | .fold _predName place frac, s, dropped =>
    if s.contains_pred place then none
    else if s.pfxOfSomeMoved place then none
    else
      match (tyOf place).typed_ref_name with
      | none => none
      | some predicate_name =>
        match predicates predicate_name with
        | none => none
        | some predicate =>
          let places_in_pred : List Perm := predicate.body.map fun perm =>
            (perm.map_place fun p =>
              p.replacePfx predicate.selfPlace place).scaleFrac frac
          let s := s.remove_all_perms places_in_pred
          some (s.insert_pred place frac, dropped)
  | .unfold _predName place frac, s, dropped =>
    if ¬ s.contains_pred place then none
    else if s.pfxOfSomeMoved place then none
    else
      match (tyOf place).typed_ref_name with
      | none => none
      | some predicate_name =>
        match predicates predicate_name with
        | none => none
        | some predicate =>
          let places_in_pred : List Perm := predicate.body.map fun perm =>
            perm.map_place fun p => p.replacePfx predicate.selfPlace place
          if ∀ perm ∈ places_in_pred, ¬ s.contains_perm perm then
            let s := s.remove_pred place frac
            some (s.insert_all_perms places_in_pred, dropped)
          else none
  | .havoc, s, dropped =>
    some (s.remove_matching (fun p => !p.is_base), dropped)
  | .expireBorrow lhs rhs, s, dropped =>
    let original_state := s
    if (tyOf lhs).is_ref = true then
      if (tyOf rhs).is_ref = true then
        if tyOf lhs = tyOf rhs then
          if ¬ s.properPfxOfSomeAcc rhs then
            if ¬ s.pfxOfSomePred rhs then
              if ¬ s.pfxOfSomeMoved rhs then
                if ¬ s.pfxOfSomeMoved lhs then
                  let s := s.remove_pred_matching_place fun p => p.hasPfx lhs
                  let s := s.remove_acc_matching_place
                    fun p => p.hasProperPfx lhs
                  let s := s.remove_pred_matching_place fun p => p.hasPfx rhs
                  let s := s.remove_acc_matching_place
                    fun p => p.hasProperPfx rhs
                  let s := s.remove_moved_matching fun p => p.hasPfx rhs
                  let new_acc :=
                    (mapSelect original_state.acc fun p => p.hasPfx lhs).image
                      fun e => (e.1.replacePfx lhs rhs, e.2)
                  let s := s.insert_all_acc new_acc
                  let new_pred :=
                    (mapSelect original_state.pred fun p => p.hasPfx lhs).image
                      fun e => (e.1.replacePfx lhs rhs, e.2)
                  some (s.insert_all_pred new_pred, dropped)
                else none
              else none
            else none
          else none
        else none
      else none
    else none

/-- Thread a statement sequence through the engine, as `process` does for a
block: each statement is applied on the state and dropped accumulator left by
the previous one. -/
def applySeq (tyOf : VPlace → VirTy) (predicates : String → Option VirPred) :
    List Stmt → State → Finset Perm → Option (State × Finset Perm)
  | [], s, dropped => some (s, dropped)
  | st :: rest, s, dropped =>
    (st.apply_on_state tyOf predicates s dropped).bind fun r =>
      applySeq tyOf predicates rest r.1 r.2

/-- The before-statement fact suppliers are total over the required
locations. -/
def beforeFactsTotal (facts : AnalysisFacts) (body : MirBody) : Prop :=
  ∀ l ∈ requiredLocations body,
    (facts.def_init_before l).isSome ∧ (facts.borrowed_before l).isSome

instance (facts : AnalysisFacts) (body : MirBody) :
    Decidable (beforeFactsTotal facts body) :=
  inferInstanceAs (Decidable (∀ l ∈ requiredLocations body,
    ((facts.def_init_before l).isSome = true)
      ∧ ((facts.borrowed_before l).isSome = true)))

/-- The after-block fact suppliers are total: both lookups are defined for
every block and, inside them, for every successor of the block. -/
def afterFactsTotal (facts : AnalysisFacts) (body : MirBody) : Prop :=
  ∀ bbd ∈ body.blocks.enum, ∃ dia ba,
    facts.def_init_after_block bbd.1 = some dia ∧
    facts.borrowed_after_block bbd.1 = some ba ∧
    ∀ s ∈ bbd.2.successors, (dia.lookup s).isSome ∧ (ba.lookup s).isSome

/-- Every state the analysis computes from the supplied facts satisfies the
accessibility invariant. -/
def allComputedInvariantsHold (fc : MirPlace → Nat) (facts : AnalysisFacts)
    (body : MirBody) : Prop :=
  (∀ l ∈ requiredLocations body, ∀ di bo,
    facts.def_init_before l = some di → facts.borrowed_before l = some bo →
      (compute_accessible_state fc di bo).invariantHolds)
  ∧ (∀ bbd ∈ body.blocks.enum, ∀ dia ba,
      facts.def_init_after_block bbd.1 = some dia →
      facts.borrowed_after_block bbd.1 = some ba →
      ∀ s ∈ bbd.2.successors, ∀ di bo,
        dia.lookup s = some di → ba.lookup s = some bo →
          (compute_accessible_state fc di bo).invariantHolds)

/-- Field-wise description of an engine result: the run succeeded and ended in
the given state and dropped accumulator.  Equivalent to equality with
`some (s, d)` (see `resultIs_iff`); stated field-wise so that concrete
instances evaluate. -/
def resultIs (r : Option (State × Finset Perm)) (s : State) (d : Finset Perm) :
    Prop :=
  match r with
  | none => False
  | some r2 =>
    r2.1.acc = s.acc ∧ r2.1.pred = s.pred ∧ r2.1.moved = s.moved ∧ r2.2 = d

instance (r : Option (State × Finset Perm)) (s : State) (d : Finset Perm) :
    Decidable (resultIs r s d) :=
  match r with
  | none => inferInstanceAs (Decidable False)
  | some _ => inferInstanceAs (Decidable (_ ∧ _ ∧ _ ∧ _))

/-! ## Concrete inputs used by witnesses and counterexamples -/

/-- A struct local `x` (numbered 0) with two fields `f` (0) and `g` (1). -/
def exampleFieldCount : MirPlace → Nat :=
  fun p => if p = ⟨0, []⟩ then 2 else 0

/-- A type context with no unpackable nodes. -/
def trivialFieldCount : MirPlace → Nat :=
  fun _ => 0

/-- A single block with no statements and no successors. -/
def oneBlockBody : MirBody :=
  ⟨[⟨0, []⟩]⟩

/-- Total facts: everywhere initialized to the single place `0`, nothing
borrowed. -/
def goodFacts : AnalysisFacts :=
  ⟨fun _ => some {⟨0, []⟩}, fun _ => some ⟨[], []⟩,
    fun _ => some [], fun _ => some []⟩

/-- Total facts whose initialized set `{0, 0.f}` is not prefix-free, so the
computed state violates the invariant although no fact is missing. -/
def badInvFacts : AnalysisFacts :=
  ⟨fun _ => some {⟨5, []⟩, ⟨5, [0]⟩}, fun _ => some ⟨[], []⟩,
    fun _ => some [], fun _ => some []⟩

/-- Total facts except the before-statement initialization lookup, which is
missing everywhere. -/
def missingBeforeFacts : AnalysisFacts :=
  ⟨fun _ => none, fun _ => some ⟨[], []⟩, fun _ => some [], fun _ => some []⟩

/-- A second total-but-invariant-violating fact supplier, over `{7, 7.2}`. -/
def badInvFacts2 : AnalysisFacts :=
  ⟨fun _ => some {⟨7, []⟩, ⟨7, [2]⟩}, fun _ => some ⟨[], []⟩,
    fun _ => some [], fun _ => some []⟩

/-- The base local `x`. -/
def vx : VPlace := ⟨"x", []⟩

/-- The base local `y`. -/
def vy : VPlace := ⟨"y", []⟩

/-- The place `x.f`. -/
def vxf : VPlace := ⟨"x", ["f"]⟩

/-- The base local `t`. -/
def vt : VPlace := ⟨"t", []⟩

/-- The place `t.field`. -/
def vtf : VPlace := ⟨"t", ["field"]⟩

/-- A type context making every place a reference of predicate type `P`. -/
def tyAllRef : VPlace → VirTy :=
  fun _ => VirTy.typedRef "P"

/-- An empty predicate table. -/
def noPreds : String → Option VirPred :=
  fun _ => none

/-- The predicate `P(self) = acc(self.f, 1)`. -/
def predP : VirPred :=
  ⟨⟨"self", []⟩, [Perm.acc ⟨"self", ["f"]⟩ 1]⟩

/-- The predicate table holding exactly `P`. -/
def predsP : String → Option VirPred :=
  fun n => if n = "P" then some predP else none

/-! ## Part 4: `src/specifications.rs` -/

/-- A specification type.  Mirrors `SpecType`. -/
inductive SpecType
  | Precondition
  | Postcondition
  | Invariant
deriving DecidableEq

/-- A conversion-from-string error.  Mirrors `TryFromStringError`. -/
inductive TryFromStringError
  | UnknownSpecificationType
deriving DecidableEq

/-- From `impl TryFrom<&str> for SpecType`: the three recognised attribute
names; any other string is an unknown specification type. -/
def SpecType.try_from (typ : String) : Except TryFromStringError SpecType :=
  if typ = "requires" then Except.ok SpecType.Precondition
  else if typ = "ensures" then Except.ok SpecType.Postcondition
  else if typ = "invariant" then Except.ok SpecType.Invariant
  else Except.error TryFromStringError.UnknownSpecificationType

/-! ## Helper lemmas -/

theorem mirPlaceExt2 {a b : MirPlace} (h1 : a.base = b.base)
    (h2 : a.proj = b.proj) : a = b := by
  cases a; cases b; simp_all

theorem MirPlace.isPfxOf_iff {a b : MirPlace} :
    a.isPfxOf b = true ↔ a.base = b.base ∧ a.proj <+: b.proj := by
  simp [MirPlace.isPfxOf]

theorem MirPlace.pfx_antisymm {a b : MirPlace} (h1 : a.isPfxOf b = true)
    (h2 : b.isPfxOf a = true) : a = b := by
  rw [MirPlace.isPfxOf_iff] at h1 h2
  exact mirPlaceExt2 h1.1
    (h1.2.eq_of_length (Nat.le_antisymm h1.2.length_le h2.2.length_le))

theorem expand_self (fc : MirPlace → Nat) (p : MirPlace) :
    expand fc p p = [] := by
  simp [expand, List.drop_length, expandRec]

theorem stateExt {s t : State} (h1 : s.acc = t.acc) (h2 : s.pred = t.pred)
    (h3 : s.moved = t.moved) : s = t := by
  cases s; cases t; simp_all

theorem resultIs_iff (r : Option (State × Finset Perm)) (s : State)
    (d : Finset Perm) : resultIs r s d ↔ r = some (s, d) := by
  cases r with
  | none => simp [resultIs]
  | some r2 =>
    simp only [resultIs, Option.some.injEq]
    constructor
    · rintro ⟨h1, h2, h3, h4⟩
      obtain ⟨s2, d2⟩ := r2
      exact Prod.ext (stateExt h1 h2 h3) h4
    · rintro rfl
      exact ⟨rfl, rfl, rfl, rfl⟩

theorem vplaceExt2 {a b : VPlace} (h1 : a.base = b.base)
    (h2 : a.proj = b.proj) : a = b := by
  cases a; cases b; simp_all

theorem VPlace.hasPfx_iff {p q : VPlace} :
    p.hasPfx q = true ↔ q.base = p.base ∧ q.proj <+: p.proj := by
  simp [VPlace.hasPfx]

theorem VPlace.hasPfx_refl (p : VPlace) : p.hasPfx p = true := by
  simp [VPlace.hasPfx_iff]

theorem VPlace.hasProperPfx_iff {p q : VPlace} :
    p.hasProperPfx q = true ↔ p.hasPfx q = true ∧ p ≠ q := by
  simp [VPlace.hasProperPfx]

theorem VPlace.hasProperPfx_self (p : VPlace) :
    p.hasProperPfx p = false := by
  simp [VPlace.hasProperPfx]

theorem VPlace.hasPfx_of_proper {p q : VPlace}
    (h : p.hasProperPfx q = true) : p.hasPfx q = true :=
  (VPlace.hasProperPfx_iff.mp h).1

theorem VPlace.proper_false_of_hasPfx_false {p q : VPlace}
    (h : p.hasPfx q = false) : p.hasProperPfx q = false := by
  simp [VPlace.hasProperPfx, h]

theorem VPlace.replacePfx_hasPfx {p q : VPlace} (r : VPlace)
    (_h : p.hasPfx q = true) : (p.replacePfx q r).hasPfx r = true := by
  simp [VPlace.replacePfx, VPlace.hasPfx_iff]

theorem VPlace.replacePfx_inv {p q : VPlace} (r : VPlace)
    (h : p.hasPfx q = true) : (p.replacePfx q r).replacePfx r q = p := by
  rw [VPlace.hasPfx_iff] at h
  obtain ⟨t, ht⟩ := h.2
  refine vplaceExt2 h.1 ?_
  simp only [VPlace.replacePfx]
  rw [← ht, List.drop_left, List.drop_left]

theorem VPlace.replacePfx_proper {p q : VPlace} (r : VPlace)
    (h : p.hasProperPfx q = true) :
    (p.replacePfx q r).hasProperPfx r = true := by
  rw [VPlace.hasProperPfx_iff] at h ⊢
  refine ⟨VPlace.replacePfx_hasPfx r h.1, ?_⟩
  obtain ⟨hb, t, ht⟩ := VPlace.hasPfx_iff.mp h.1
  intro hcon
  have hproj : r.proj ++ p.proj.drop q.proj.length = r.proj := by
    have := congrArg VPlace.proj hcon
    simpa [VPlace.replacePfx] using this
  have hth : p.proj.drop q.proj.length = t := by
    rw [← ht, List.drop_left]
  rw [hth] at hproj
  have hnil : t = [] := by
    have := congrArg List.length hproj
    simpa using this
  exact h.2 (vplaceExt2 hb.symm (by rw [← ht, hnil, List.append_nil]))

theorem VPlace.pfx_unrelated {p lhs rhs : VPlace}
    (hp : p.hasPfx rhs = true) (h1 : lhs.hasPfx rhs = false)
    (h2 : rhs.hasPfx lhs = false) : p.hasPfx lhs = false := by
  by_contra hcon
  rw [Bool.not_eq_false, VPlace.hasPfx_iff] at hcon
  rw [VPlace.hasPfx_iff] at hp
  rcases List.prefix_or_prefix_of_prefix hcon.2 hp.2 with hc | hc
  · rw [← Bool.not_eq_true, VPlace.hasPfx_iff] at h2
    exact h2 ⟨hcon.1.trans hp.1.symm, hc⟩
  · rw [← Bool.not_eq_true, VPlace.hasPfx_iff] at h1
    exact h1 ⟨hp.1.trans hcon.1.symm, hc⟩

theorem mem_mapRemoveWhere {m : PermMap} {φ : VPlace → Bool}
    {e : VPlace × ℚ} :
    e ∈ mapRemoveWhere m φ ↔ e ∈ m ∧ φ e.1 = false := by
  simp [mapRemoveWhere]

theorem mem_mapSelect {m : PermMap} {φ : VPlace → Bool} {e : VPlace × ℚ} :
    e ∈ mapSelect m φ ↔ e ∈ m ∧ φ e.1 = true := by
  simp [mapSelect]

theorem mem_mapRemoveKey {m : PermMap} {p : VPlace} {e : VPlace × ℚ} :
    e ∈ mapRemoveKey m p ↔ e ∈ m ∧ e.1 ≠ p := by
  simp [mapRemoveKey]

theorem mem_mapInsert {m : PermMap} {p : VPlace} {f : ℚ} {e : VPlace × ℚ} :
    e ∈ mapInsert m p f ↔ (e ∈ m ∧ e.1 ≠ p) ∨ e = (p, f) := by
  simp [mapInsert, mem_mapRemoveKey, Finset.mem_union]

theorem mem_mapInsertAll {m adds : PermMap} {e : VPlace × ℚ} :
    e ∈ mapInsertAll m adds
      ↔ (e ∈ m ∧ ¬ ∃ a ∈ adds, a.1 = e.1) ∨ e ∈ adds := by
  simp [mapInsertAll, Finset.mem_union, Finset.mem_filter]

theorem processBeforePoints_ok_inv (fc : MirPlace → Nat)
    (facts : AnalysisFacts) (block : Nat) (idxs : List Nat) :
    ∀ res, processBeforePoints fc facts block idxs = Except.ok res →
      ∀ pr ∈ res, pr.2.invariantHolds := by
  induction idxs with
  | nil =>
    intro res h pr hpr
    simp only [processBeforePoints] at h
    cases h
    simp at hpr
  | cons i rest ih =>
    intro res h pr hpr
    simp only [processBeforePoints] at h
    cases hd : facts.def_init_before ⟨block, i⟩ <;> simp only [hd] at h
    · exact absurd h (by simp)
    case some def_init =>
    cases hb : facts.borrowed_before ⟨block, i⟩ <;> simp only [hb] at h
    · exact absurd h (by simp)
    case some borrowed =>
    by_cases hinv : (compute_accessible_state fc def_init borrowed).invariantHolds
    · rw [if_pos hinv] at h
      cases hrec : processBeforePoints fc facts block rest <;> rw [hrec] at h
      · exact absurd h (by simp [Except.map])
      next tail =>
      simp only [Except.map, Except.ok.injEq] at h
      subst h
      rcases List.mem_cons.mp hpr with h1 | h1
      · rw [h1]
        exact hinv
      · exact ih tail hrec pr h1
    · rw [if_neg hinv] at h
      exact absurd h (by simp)

theorem processEdges_ok_inv (fc : MirPlace → Nat) (block : Nat)
    (dia : List (Nat × Finset MirPlace)) (ba : List (Nat × MaybeBorrowedState))
    (succs : List Nat) :
    ∀ res, processEdges fc block dia ba succs = Except.ok res →
      ∀ pr ∈ res, pr.2.invariantHolds := by
  induction succs with
  | nil =>
    intro res h pr hpr
    simp only [processEdges] at h
    cases h
    simp at hpr
  | cons s rest ih =>
    intro res h pr hpr
    simp only [processEdges] at h
    cases hd : dia.lookup s <;> simp only [hd] at h
    · exact absurd h (by simp)
    case some def_init =>
    cases hb : ba.lookup s <;> simp only [hb] at h
    · exact absurd h (by simp)
    case some borrowed =>
    by_cases hinv : (compute_accessible_state fc def_init borrowed).invariantHolds
    · rw [if_pos hinv] at h
      cases hrec : processEdges fc block dia ba rest <;> rw [hrec] at h
      · exact absurd h (by simp [Except.map])
      next tail =>
      simp only [Except.map, Except.ok.injEq] at h
      subst h
      rcases List.mem_cons.mp hpr with h1 | h1
      · rw [h1]
        exact hinv
      · exact ih tail hrec pr h1
    · rw [if_neg hinv] at h
      exact absurd h (by simp)

theorem processBlock_ok_inv (fc : MirPlace → Nat) (facts : AnalysisFacts)
    (block : Nat) (bd : BlockData) :
    ∀ res, processBlock fc facts block bd = Except.ok res →
      ∀ pr ∈ res, pr.2.invariantHolds := by
  intro res h pr hpr
  simp only [processBlock] at h
  cases hbef : processBeforePoints fc facts block
      (List.range (bd.statementCount + 1)) <;> simp only [hbef] at h
  · exact absurd h (by simp)
  case ok befores =>
  cases hdia : facts.def_init_after_block block <;> simp only [hdia] at h
  · exact absurd h (by simp)
  case some dia =>
  cases hba : facts.borrowed_after_block block <;> simp only [hba] at h
  · exact absurd h (by simp)
  case some ba =>
  cases hedges : processEdges fc block dia ba bd.successors <;> simp only [hedges] at h
  · exact absurd h (by simp [Except.map])
  case ok edges =>
  simp only [Except.map, Except.ok.injEq] at h
  subst h
  rcases List.mem_append.mp hpr with h1 | h1
  · exact processBeforePoints_ok_inv fc facts block _ befores hbef pr h1
  · exact processEdges_ok_inv fc block dia ba bd.successors edges hedges pr h1

theorem runBlocks_ok_inv (fc : MirPlace → Nat) (facts : AnalysisFacts)
    (bs : List (Nat × BlockData)) :
    ∀ res, runBlocks fc facts bs = Except.ok res →
      ∀ pr ∈ res, pr.2.invariantHolds := by
  induction bs with
  | nil =>
    intro res h pr hpr
    simp only [runBlocks] at h
    cases h
    simp at hpr
  | cons bbd rest ih =>
    intro res h pr hpr
    obtain ⟨b, bd⟩ := bbd
    simp only [runBlocks] at h
    cases hblk : processBlock fc facts b bd <;> simp only [hblk] at h
    · exact absurd h (by simp)
    case ok states =>
    cases hrec : runBlocks fc facts rest <;> simp only [hrec] at h
    · exact absurd h (by simp [Except.map])
    case ok tail =>
    simp only [Except.map, Except.ok.injEq] at h
    subst h
    rcases List.mem_append.mp hpr with h1 | h1
    · exact processBlock_ok_inv fc facts b bd states hblk pr h1
    · exact ih tail hrec pr h1

theorem processBeforePoints_ok_total (fc : MirPlace → Nat)
    (facts : AnalysisFacts) (block : Nat) (idxs : List Nat) :
    ∀ res, processBeforePoints fc facts block idxs = Except.ok res →
      ∀ i ∈ idxs, (facts.def_init_before ⟨block, i⟩).isSome
        ∧ (facts.borrowed_before ⟨block, i⟩).isSome := by
  induction idxs with
  | nil =>
    intro res h i hi
    simp at hi
  | cons j rest ih =>
    intro res h i hi
    simp only [processBeforePoints] at h
    cases hd : facts.def_init_before ⟨block, j⟩ <;> simp only [hd] at h
    · exact absurd h (by simp)
    case some def_init =>
    cases hb : facts.borrowed_before ⟨block, j⟩ <;> simp only [hb] at h
    · exact absurd h (by simp)
    case some borrowed =>
    by_cases hinv : (compute_accessible_state fc def_init borrowed).invariantHolds
    · rw [if_pos hinv] at h
      cases hrec : processBeforePoints fc facts block rest <;> rw [hrec] at h
      · exact absurd h (by simp [Except.map])
      next tail =>
      rcases List.mem_cons.mp hi with h1 | h1
      · subst h1
        exact ⟨by simp [hd], by simp [hb]⟩
      · exact ih tail hrec i h1
    · rw [if_neg hinv] at h
      exact absurd h (by simp)

theorem processEdges_ok_total (fc : MirPlace → Nat) (block : Nat)
    (dia : List (Nat × Finset MirPlace)) (ba : List (Nat × MaybeBorrowedState))
    (succs : List Nat) :
    ∀ res, processEdges fc block dia ba succs = Except.ok res →
      ∀ s ∈ succs, (dia.lookup s).isSome ∧ (ba.lookup s).isSome := by
  induction succs with
  | nil =>
    intro res h s hs
    simp at hs
  | cons j rest ih =>
    intro res h s hs
    simp only [processEdges] at h
    cases hd : dia.lookup j <;> simp only [hd] at h
    · exact absurd h (by simp)
    case some def_init =>
    cases hb : ba.lookup j <;> simp only [hb] at h
    · exact absurd h (by simp)
    case some borrowed =>
    by_cases hinv : (compute_accessible_state fc def_init borrowed).invariantHolds
    · rw [if_pos hinv] at h
      cases hrec : processEdges fc block dia ba rest <;> rw [hrec] at h
      · exact absurd h (by simp [Except.map])
      next tail =>
      rcases List.mem_cons.mp hs with h1 | h1
      · subst h1
        exact ⟨by simp [hd], by simp [hb]⟩
      · exact ih tail hrec s h1
    · rw [if_neg hinv] at h
      exact absurd h (by simp)

theorem processBlock_ok_total (fc : MirPlace → Nat) (facts : AnalysisFacts)
    (block : Nat) (bd : BlockData) :
    ∀ res, processBlock fc facts block bd = Except.ok res →
      (∀ i ∈ List.range (bd.statementCount + 1),
          (facts.def_init_before ⟨block, i⟩).isSome
            ∧ (facts.borrowed_before ⟨block, i⟩).isSome)
      ∧ ∃ dia ba, facts.def_init_after_block block = some dia
          ∧ facts.borrowed_after_block block = some ba
          ∧ ∀ s ∈ bd.successors,
              (dia.lookup s).isSome ∧ (ba.lookup s).isSome := by
  intro res h
  simp only [processBlock] at h
  cases hbef : processBeforePoints fc facts block
      (List.range (bd.statementCount + 1)) <;> simp only [hbef] at h
  · exact absurd h (by simp)
  case ok befores =>
  cases hdia : facts.def_init_after_block block <;> simp only [hdia] at h
  · exact absurd h (by simp)
  case some dia =>
  cases hba : facts.borrowed_after_block block <;> simp only [hba] at h
  · exact absurd h (by simp)
  case some ba =>
  cases hedges : processEdges fc block dia ba bd.successors <;>
    simp only [hedges] at h
  · exact absurd h (by simp [Except.map])
  case ok edges =>
  exact ⟨processBeforePoints_ok_total fc facts block _ befores hbef,
    dia, ba, rfl, rfl,
    processEdges_ok_total fc block dia ba bd.successors edges hedges⟩

theorem runBlocks_ok_total (fc : MirPlace → Nat) (facts : AnalysisFacts)
    (bs : List (Nat × BlockData)) :
    ∀ res, runBlocks fc facts bs = Except.ok res →
      ∀ bbd ∈ bs,
        (∀ i ∈ List.range (bbd.2.statementCount + 1),
            (facts.def_init_before ⟨bbd.1, i⟩).isSome
              ∧ (facts.borrowed_before ⟨bbd.1, i⟩).isSome)
        ∧ ∃ dia ba, facts.def_init_after_block bbd.1 = some dia
            ∧ facts.borrowed_after_block bbd.1 = some ba
            ∧ ∀ s ∈ bbd.2.successors,
                (dia.lookup s).isSome ∧ (ba.lookup s).isSome := by
  induction bs with
  | nil =>
    intro res h bbd hmem
    simp at hmem
  | cons bbd0 rest ih =>
    intro res h bbd hmem
    obtain ⟨b, bd⟩ := bbd0
    simp only [runBlocks] at h
    cases hblk : processBlock fc facts b bd <;> simp only [hblk] at h
    · exact absurd h (by simp)
    case ok states =>
    cases hrec : runBlocks fc facts rest <;> simp only [hrec] at h
    · exact absurd h (by simp [Except.map])
    case ok tail =>
    rcases List.mem_cons.mp hmem with h1 | h1
    · subst h1
      exact processBlock_ok_total fc facts b bd states hblk
    · exact ih tail hrec bbd h1

theorem processBeforePoints_total_ok (fc : MirPlace → Nat)
    (facts : AnalysisFacts) (block : Nat) (idxs : List Nat)
    (h1 : ∀ i ∈ idxs, ∃ di bo,
        facts.def_init_before ⟨block, i⟩ = some di
        ∧ facts.borrowed_before ⟨block, i⟩ = some bo
        ∧ (compute_accessible_state fc di bo).invariantHolds) :
    ∃ res, processBeforePoints fc facts block idxs = Except.ok res := by
  induction idxs with
  | nil => exact ⟨[], rfl⟩
  | cons j rest ih =>
    obtain ⟨di, bo, hd, hb, hinv⟩ := h1 j (List.mem_cons_self j rest)
    obtain ⟨tail, htail⟩ := ih fun i hi => h1 i (List.mem_cons_of_mem j hi)
    refine ⟨(ProgramPoint.before ⟨block, j⟩,
      compute_accessible_state fc di bo) :: tail, ?_⟩
    simp only [processBeforePoints, hd, hb, if_pos hinv, htail, Except.map]

theorem processEdges_total_ok (fc : MirPlace → Nat) (block : Nat)
    (dia : List (Nat × Finset MirPlace)) (ba : List (Nat × MaybeBorrowedState))
    (succs : List Nat)
    (h1 : ∀ s ∈ succs, ∃ di bo, dia.lookup s = some di
        ∧ ba.lookup s = some bo
        ∧ (compute_accessible_state fc di bo).invariantHolds) :
    ∃ res, processEdges fc block dia ba succs = Except.ok res := by
  induction succs with
  | nil => exact ⟨[], rfl⟩
  | cons j rest ih =>
    obtain ⟨di, bo, hd, hb, hinv⟩ := h1 j (List.mem_cons_self j rest)
    obtain ⟨tail, htail⟩ := ih fun s hs => h1 s (List.mem_cons_of_mem j hs)
    refine ⟨(ProgramPoint.afterBlock block j,
      compute_accessible_state fc di bo) :: tail, ?_⟩
    simp only [processEdges, hd, hb, if_pos hinv, htail, Except.map]

theorem processBlock_total_ok (fc : MirPlace → Nat) (facts : AnalysisFacts)
    (block : Nat) (bd : BlockData)
    (h1 : ∀ i ∈ List.range (bd.statementCount + 1), ∃ di bo,
        facts.def_init_before ⟨block, i⟩ = some di
        ∧ facts.borrowed_before ⟨block, i⟩ = some bo
        ∧ (compute_accessible_state fc di bo).invariantHolds)
    (h2 : ∃ dia ba, facts.def_init_after_block block = some dia
        ∧ facts.borrowed_after_block block = some ba
        ∧ ∀ s ∈ bd.successors, ∃ di bo, dia.lookup s = some di
            ∧ ba.lookup s = some bo
            ∧ (compute_accessible_state fc di bo).invariantHolds) :
    ∃ res, processBlock fc facts block bd = Except.ok res := by
  obtain ⟨befores, hbef⟩ := processBeforePoints_total_ok fc facts block _ h1
  obtain ⟨dia, ba, hdia, hba, hsucc⟩ := h2
  obtain ⟨edges, hedges⟩ := processEdges_total_ok fc block dia ba _ hsucc
  exact ⟨befores ++ edges,
    by simp only [processBlock, hbef, hdia, hba, hedges, Except.map]⟩

theorem runBlocks_total_ok (fc : MirPlace → Nat) (facts : AnalysisFacts)
    (bs : List (Nat × BlockData))
    (h : ∀ bbd ∈ bs,
        (∀ i ∈ List.range (bbd.2.statementCount + 1), ∃ di bo,
            facts.def_init_before ⟨bbd.1, i⟩ = some di
            ∧ facts.borrowed_before ⟨bbd.1, i⟩ = some bo
            ∧ (compute_accessible_state fc di bo).invariantHolds)
        ∧ ∃ dia ba, facts.def_init_after_block bbd.1 = some dia
            ∧ facts.borrowed_after_block bbd.1 = some ba
            ∧ ∀ s ∈ bbd.2.successors, ∃ di bo, dia.lookup s = some di
                ∧ ba.lookup s = some bo
                ∧ (compute_accessible_state fc di bo).invariantHolds) :
    ∃ res, runBlocks fc facts bs = Except.ok res := by
  induction bs with
  | nil => exact ⟨[], rfl⟩
  | cons bbd0 rest ih =>
    obtain ⟨hb1, hb2⟩ := h bbd0 (List.mem_cons_self bbd0 rest)
    obtain ⟨states, hstates⟩ :=
      processBlock_total_ok fc facts bbd0.1 bbd0.2 hb1 hb2
    obtain ⟨tail, htail⟩ := ih fun bbd hmem => h bbd (List.mem_cons_of_mem bbd0 hmem)
    refine ⟨states ++ tail, ?_⟩
    obtain ⟨b, bd⟩ := bbd0
    simp only [runBlocks, hstates, htail, Except.map]

/-! ## Claim theorems -/

/-- Claim C1: `remove_place_from_set(target, S)` handles each member `p`
independently, dropping `p` when the target covers it, replacing `p` by
`expand(p, target)` when `p` is a proper prefix of the target, and keeping
`p` otherwise — i.e. it agrees with the spec-ordered `remove_place_spec`;
moreover, for a struct `x` with fields `f` and `g`, removing `x.f` from
`\x7bx\x7d` yields `\x7bx.g\x7d`, and removing `x` from `\x7bx.f, x.g\x7d`
yields the empty set. -/
theorem c1_remove_place_from_set_spec :
    (∀ fc target set, remove_place_from_set fc target set
        = remove_place_spec fc target set)
    ∧ remove_place_from_set exampleFieldCount ⟨0, [0]⟩ {⟨0, []⟩} = {⟨0, [1]⟩}
    ∧ remove_place_from_set exampleFieldCount ⟨0, []⟩ {⟨0, [0]⟩, ⟨0, [1]⟩}
        = ∅ := by
  refine ⟨fun fc target set => ?_, by decide, by decide⟩
  unfold remove_place_from_set remove_place_spec
  refine Finset.biUnion_congr rfl fun p hp => ?_
  by_cases h1 : p.isPfxOf target = true
  · by_cases h2 : target.isPfxOf p = true
    · have heq : p = target := MirPlace.pfx_antisymm h1 h2
      subst heq
      simp [h1, expand_self]
    · simp [h1, h2]
  · by_cases h2 : target.isPfxOf p = true
    · simp [h1, h2]
    · simp [h1, h2]

/-- Claim C2: every accessibility state `run_analysis` records — before every
statement of every block, the terminator position included, and on every
terminator-to-successor edge — satisfies owned-included-in-accessible and
prefix-freeness of both sets; a violating computation is an unrecoverable
error naming the offending program point, shown at a concrete input whose
initialized set is not prefix-free. -/
theorem c2_run_analysis_invariant :
    (∀ fc facts body res, run_analysis fc facts body = Except.ok res →
        ∀ pr ∈ res, pr.2.invariantHolds)
    ∧ run_analysis trivialFieldCount badInvFacts oneBlockBody
        = Except.error "invariant violated at block 0 statement 0" := by
  constructor
  · intro fc facts body res h
    exact runBlocks_ok_inv fc facts body.blocks.enum res h
  · rfl

/-- Witness for C2: a concrete one-block run succeeds and the recorded state
satisfies the invariant. -/
theorem c2_witness :
    (⟨{⟨0, []⟩}, {⟨0, []⟩}⟩ : DefinitelyAccessibleState).invariantHolds :=
  c2_run_analysis_invariant.1 trivialFieldCount goodFacts oneBlockBody
    [(ProgramPoint.before ⟨0, 0⟩, ⟨{⟨0, []⟩}, {⟨0, []⟩}⟩)] (by rfl)
    (ProgramPoint.before ⟨0, 0⟩, ⟨{⟨0, []⟩}, {⟨0, []⟩}⟩)
    (List.mem_singleton.mpr rfl)

/-- Claim C8 (amended): `run_analysis` succeeds whenever the external fact
suppliers are total over the required points and every computed state
satisfies the invariant; conversely a successful run implies the suppliers
were total, so a missing fact always forces a failure — shown concretely by a
run whose before-statement initialization lookup is missing, which fails with
an error naming the offending program point.  (Failure is not equivalent to a
missing fact alone: see the counterexample, where total facts still fail on
an invariant violation.) -/
theorem c8_run_analysis_failure_characterization :
    (∀ fc facts body, beforeFactsTotal facts body → afterFactsTotal facts body →
        allComputedInvariantsHold fc facts body →
        ∃ res, run_analysis fc facts body = Except.ok res)
    ∧ (∀ fc facts body res, run_analysis fc facts body = Except.ok res →
        beforeFactsTotal facts body ∧ afterFactsTotal facts body)
    ∧ run_analysis trivialFieldCount missingBeforeFacts oneBlockBody
        = Except.error "no def_init state before block 0 statement 0" := by
  refine ⟨?_, ?_, rfl⟩
  · intro fc facts body h1 h2 h3
    refine runBlocks_total_ok fc facts body.blocks.enum fun bbd hmem => ?_
    constructor
    · intro i hi
      have hloc : (⟨bbd.1, i⟩ : Location) ∈ requiredLocations body := by
        rw [requiredLocations, List.mem_flatMap]
        exact ⟨bbd, hmem, List.mem_map.mpr ⟨i, hi, rfl⟩⟩
      obtain ⟨hd, hb⟩ := h1 _ hloc
      obtain ⟨di, hdi⟩ := Option.isSome_iff_exists.mp hd
      obtain ⟨bo, hbo⟩ := Option.isSome_iff_exists.mp hb
      exact ⟨di, bo, hdi, hbo, h3.1 _ hloc di bo hdi hbo⟩
    · obtain ⟨dia, ba, hdia, hba, hsucc⟩ := h2 bbd hmem
      refine ⟨dia, ba, hdia, hba, fun s hs => ?_⟩
      obtain ⟨hd, hb⟩ := hsucc s hs
      obtain ⟨di, hdi⟩ := Option.isSome_iff_exists.mp hd
      obtain ⟨bo, hbo⟩ := Option.isSome_iff_exists.mp hb
      exact ⟨di, bo, hdi, hbo,
        h3.2 bbd hmem dia ba hdia hba s hs di bo hdi hbo⟩
  · intro fc facts body res h
    have hblocks := runBlocks_ok_total fc facts body.blocks.enum res h
    constructor
    · intro l hl
      rw [requiredLocations, List.mem_flatMap] at hl
      obtain ⟨bbd, hmem, hi⟩ := hl
      rw [List.mem_map] at hi
      obtain ⟨i, hirange, rfl⟩ := hi
      exact (hblocks bbd hmem).1 i hirange
    · intro bbd hmem
      exact (hblocks bbd hmem).2

/-- Counterexample for C8: with manifestly total fact suppliers — every
lookup returns a value — the analysis still fails fatally, because the
computed state violates the accessibility invariant; so failure is not
equivalent to a missing external fact. -/
theorem c8_counterexample :
    run_analysis trivialFieldCount badInvFacts2 oneBlockBody
      = Except.error "invariant violated at block 0 statement 0"
    ∧ beforeFactsTotal badInvFacts2 oneBlockBody
    ∧ afterFactsTotal badInvFacts2 oneBlockBody := by
  refine ⟨rfl, by decide, fun bbd hb => ?_⟩
  have hb2 : bbd ∈ [((0 : Nat), (⟨0, []⟩ : BlockData))] := hb
  obtain rfl := List.mem_singleton.mp hb2
  exact ⟨[], [], rfl, rfl, fun s hs => absurd hs (List.not_mem_nil s)⟩

/-- Witness for C8: with total facts and invariant-respecting computations on
a concrete one-block body, the analysis succeeds. -/
theorem c8_witness :
    ∃ res, run_analysis trivialFieldCount goodFacts oneBlockBody
      = Except.ok res := by
  refine c8_run_analysis_failure_characterization.1 trivialFieldCount goodFacts
    oneBlockBody (by decide) (fun bbd hb => ?_) ⟨?_, ?_⟩
  · have hb2 : bbd ∈ [((0 : Nat), (⟨0, []⟩ : BlockData))] := hb
    obtain rfl := List.mem_singleton.mp hb2
    exact ⟨[], [], rfl, rfl, fun s hs => absurd hs (List.not_mem_nil s)⟩
  · intro l hl di bo hdi hbo
    cases hdi
    cases hbo
    decide
  · intro bbd hb dia ba hdia hba s hs di bo hdi hbo
    have hb2 : bbd ∈ [((0 : Nat), (⟨0, []⟩ : BlockData))] := hb
    obtain rfl := List.mem_singleton.mp hb2
    exact absurd hs (List.not_mem_nil s)

/-- Claim C10: `SpecType::try_from` returns the precondition, postcondition
and invariant constructors exactly on the strings `requires`, `ensures` and
`invariant` respectively, and the unknown-specification-type error on every
other string. -/
theorem c10_spec_type_try_from (s : String) :
    (SpecType.try_from s = Except.ok SpecType.Precondition ↔ s = "requires")
    ∧ (SpecType.try_from s = Except.ok SpecType.Postcondition ↔ s = "ensures")
    ∧ (SpecType.try_from s = Except.ok SpecType.Invariant ↔ s = "invariant")
    ∧ (s ≠ "requires" → s ≠ "ensures" → s ≠ "invariant" →
        SpecType.try_from s
          = Except.error TryFromStringError.UnknownSpecificationType) := by
  unfold SpecType.try_from
  by_cases h1 : s = "requires" <;> by_cases h2 : s = "ensures" <;>
    by_cases h3 : s = "invariant" <;> simp_all

/-- Witness for C10: the string `foo` matches none of the three attribute
names and is rejected. -/
theorem c10_witness :
    SpecType.try_from "foo"
      = Except.error TryFromStringError.UnknownSpecificationType :=
  (c10_spec_type_try_from "foo").2.2.2 (by decide) (by decide) (by decide)

theorem assignMarkRhs_move_eq (tyOf : VPlace → VirTy) (rhs_place : VPlace)
    (s s1 : State) :
    assignMarkRhs tyOf AssignKind.move (VExpr.place rhs_place) s = some s1 →
      (tyOf rhs_place).is_ref = true ∧ ¬ s.pfxOfSomeMoved rhs_place
      ∧ (∀ q ∈ rhs_place.allProperPfxs, ¬ s.contains_pred q)
      ∧ s1 = s.insert_moved rhs_place := by
  intro h
  simp only [assignMarkRhs] at h
  split_ifs at h with h1 h2 h3 <;> cases h
  exact ⟨h1, h2, h3, rfl⟩

/-- Claim C3 fails on the code: folding at fraction 1/2 removes the body
permissions scaled by 1/2, but the Unfold arm re-inserts the substituted body
unscaled (the source omits the multiplication by the fraction that the Fold
arm performs), so Fold immediately followed by Unfold turns acc(x.f, 1/2)
into acc(x.f, 1) instead of restoring the prior state. -/
theorem c3_fold_unfold_roundtrip_fails :
    resultIs (applySeq tyAllRef predsP
        [Stmt.fold "P" vx (mkRat 1 2), Stmt.unfold "P" vx (mkRat 1 2)]
        ⟨{(vxf, mkRat 1 2)}, ∅, ∅⟩ ∅)
      ⟨{(vxf, 1)}, ∅, ∅⟩ ∅
    ∧ (⟨{(vxf, 1)}, ∅, ∅⟩ : State) ≠ ⟨{(vxf, mkRat 1 2)}, ∅, ∅⟩ :=
  ⟨by decide, by decide⟩

/-- Counterexample for C6: Havoc on a state holding a predicate permission on
the bare variable `x` keeps that predicate permission — the filter removes
only permissions on projected places — so the post-Havoc state does contain a
permission other than a bare whole-variable access permission. -/
theorem c6_counterexample :
    resultIs (Stmt.havoc.apply_on_state tyAllRef noPreds ⟨∅, {(vx, 1)}, ∅⟩ ∅)
      ⟨∅, {(vx, 1)}, ∅⟩ ∅
    ∧ (vx, (1 : ℚ)) ∈ ({(vx, 1)} : PermMap) :=
  ⟨by decide, by decide⟩

/-- Claim C6 (amended): Havoc removes exactly the access and predicate
permissions whose place carries at least one projection; permissions of
either kind on bare variables survive, and moved set and dropped accumulator
are unchanged. -/
theorem c6_havoc_amended (tyOf : VPlace → VirTy)
    (preds : String → Option VirPred) (s : State) (d : Finset Perm)
    (r : State × Finset Perm) :
    Stmt.havoc.apply_on_state tyOf preds s d = some r →
      (∀ p f, ((p, f) ∈ r.1.acc ↔ (p, f) ∈ s.acc ∧ p.is_base = true))
      ∧ (∀ p f, ((p, f) ∈ r.1.pred ↔ (p, f) ∈ s.pred ∧ p.is_base = true))
      ∧ r.1.moved = s.moved ∧ r.2 = d := by
  intro h
  simp only [Stmt.apply_on_state] at h
  cases h
  refine ⟨fun p f => ?_, fun p f => ?_, rfl, rfl⟩ <;>
    simp [State.remove_matching, mapRemoveWhere, Finset.mem_filter]

/-- Witness for C6: on a concrete state the base-variable predicate
permission survives Havoc and the projected one is removed. -/
theorem c6_witness :
    ((vt, (1 : ℚ)) ∈ ((⟨∅, {(vt, 1), (vxf, 1)}, ∅⟩ : State).remove_matching
        (fun p => !p.is_base)).pred)
    ∧ ¬ ((vxf, (1 : ℚ)) ∈ ((⟨∅, {(vt, 1), (vxf, 1)}, ∅⟩ :
        State).remove_matching (fun p => !p.is_base)).pred) := by
  have h := c6_havoc_amended tyAllRef noPreds ⟨∅, {(vt, 1), (vxf, 1)}, ∅⟩ ∅
    ((⟨∅, {(vt, 1), (vxf, 1)}, ∅⟩ : State).remove_matching
      (fun p => !p.is_base), ∅) rfl
  constructor
  · exact (h.2.1 vt 1).mpr ⟨by decide, by decide⟩
  · intro hmem
    exact absurd ((h.2.1 vxf 1).mp hmem).2 (by decide)

/-- Claim C5: a method call moves every predicate permission rooted at a
target, and every access permission on a projected place rooted at a target,
into the dropped accumulator and removes it from the state, and clears every
moved marker rooted at a target. -/
theorem c5_method_call (tyOf : VPlace → VirTy)
    (preds : String → Option VirPred) (targets : List String) (s : State)
    (d : Finset Perm) (r : State × Finset Perm) :
    (Stmt.methodCall targets).apply_on_state tyOf preds s d = some r →
      (∀ p f, (p, f) ∈ s.pred → targets.contains p.baseVar = true →
          Perm.pred p f ∈ r.2 ∧ (p, f) ∉ r.1.pred)
      ∧ (∀ p f, (p, f) ∈ s.acc → p.is_base = false →
          targets.contains p.baseVar = true →
          Perm.acc p f ∈ r.2 ∧ (p, f) ∉ r.1.acc)
      ∧ (∀ m ∈ s.moved, targets.contains m.baseVar = true →
          m ∉ r.1.moved) := by
  intro h
  simp only [Stmt.apply_on_state] at h
  cases h
  refine ⟨fun p f hmem htgt => ⟨?_, ?_⟩, fun p f hmem hnb htgt => ⟨?_, ?_⟩,
    fun m hmem htgt hcon => ?_⟩
  · refine Finset.mem_union_left _ (Finset.mem_union_right _ ?_)
    exact Finset.mem_image.mpr ⟨(p, f), Finset.mem_filter.mpr ⟨hmem, htgt⟩, rfl⟩
  · intro hcon
    have := (Finset.mem_filter.mp hcon).2
    simp only [State.remove_moved_matching, State.remove_pred_matching_place,
      mapRemoveWhere] at this
    rw [htgt] at this
    cases this
  · refine Finset.mem_union_right _ ?_
    refine Finset.mem_image.mpr ⟨(p, f), Finset.mem_filter.mpr ⟨hmem, ?_⟩, rfl⟩
    show (!p.is_base && targets.contains p.baseVar) = true
    rw [hnb, htgt]
    rfl
  · intro hcon
    have := (Finset.mem_filter.mp hcon).2
    simp only [State.remove_acc_matching_place, mapRemoveWhere] at this
    rw [hnb, htgt] at this
    cases this
  · have := (Finset.mem_filter.mp hcon).2
    simp only [State.remove_moved_matching] at this
    rw [htgt] at this
    cases this

/-- Witness for C5: with target `t` and predicate map holding `t.field` at
1/2, the entry lands in the dropped accumulator and the post-call predicate
map is empty. -/
theorem c5_witness :
    Perm.pred vtf (mkRat 1 2) ∈ ({Perm.pred vtf (mkRat 1 2)} : Finset Perm)
    ∧ (vtf, mkRat 1 2) ∉ (∅ : PermMap) := by
  have h : (Stmt.methodCall ["t"]).apply_on_state tyAllRef noPreds
      ⟨∅, {(vtf, mkRat 1 2)}, ∅⟩ ∅
      = some (⟨∅, ∅, ∅⟩, {Perm.pred vtf (mkRat 1 2)}) :=
    (resultIs_iff _ _ _).mp (by decide)
  exact (c5_method_call tyAllRef noPreds ["t"] _ _ _ h).1 vtf (mkRat 1 2)
    (by decide) (by decide)

theorem assign_borrow_apply (tyOf : VPlace → VirTy)
    (preds : String → Option VirPred) (lhs rhs_place : VPlace) (s : State)
    (d : Finset Perm) (htyr : (tyOf rhs_place).is_ref = true)
    (hm : ¬ s.pfxOfSomeMoved rhs_place)
    (hpp : ∀ q ∈ rhs_place.allProperPfxs, ¬ s.contains_pred q) :
    (Stmt.assign lhs (VExpr.place rhs_place)
        AssignKind.mutableBorrow).apply_on_state tyOf preds s d
      = some (((((((((s.remove_moved_matching fun p => p.hasPfx lhs
          ).remove_pred_matching_place fun p => p.hasPfx lhs
          ).remove_acc_matching_place fun p => p.hasProperPfx lhs
          ).remove_pred_matching_place fun p => p.hasPfx rhs_place
          ).remove_acc_matching_place fun p => p.hasProperPfx rhs_place
          ).remove_pred_matching_place fun p => p.hasPfx lhs
          ).remove_acc_matching_place fun p => p.hasPfx lhs
          ).insert_all_acc ((mapSelect s.acc fun p =>
              p.hasPfx rhs_place).image
              fun e => (e.1.replacePfx rhs_place lhs, e.2))
          ).insert_all_pred ((mapSelect s.pred fun p =>
              p.hasPfx rhs_place).image
              fun e => (e.1.replacePfx rhs_place lhs, e.2)),
        d ∪ ((mapSelect s.pred fun p => p.hasPfx lhs).image
              fun e => Perm.pred e.1 e.2)
          ∪ ((mapSelect s.acc fun p => p.hasProperPfx lhs).image
              fun e => Perm.acc e.1 e.2)) := by
  simp only [Stmt.apply_on_state, assignMarkRhs, if_pos htyr, if_pos hm,
    if_pos hpp, Option.some_bind, assignMoveRhsToLhs]
  rfl

theorem expire_apply (tyOf : VPlace → VirTy)
    (preds : String → Option VirPred) (lhs rhs : VPlace) (s : State)
    (d : Finset Perm) (h1 : (tyOf lhs).is_ref = true)
    (h2 : (tyOf rhs).is_ref = true) (h3 : tyOf lhs = tyOf rhs)
    (h4 : ¬ s.properPfxOfSomeAcc rhs) (h5 : ¬ s.pfxOfSomePred rhs)
    (h6 : ¬ s.pfxOfSomeMoved rhs) (h7 : ¬ s.pfxOfSomeMoved lhs) :
    (Stmt.expireBorrow lhs rhs).apply_on_state tyOf preds s d
      = some ((((((((s.remove_pred_matching_place fun p => p.hasPfx lhs
          ).remove_acc_matching_place fun p => p.hasProperPfx lhs
          ).remove_pred_matching_place fun p => p.hasPfx rhs
          ).remove_acc_matching_place fun p => p.hasProperPfx rhs
          ).remove_moved_matching fun p => p.hasPfx rhs
          ).insert_all_acc ((mapSelect s.acc fun p => p.hasPfx lhs).image
              fun e => (e.1.replacePfx lhs rhs, e.2))
          ).insert_all_pred ((mapSelect s.pred fun p => p.hasPfx lhs).image
              fun e => (e.1.replacePfx lhs rhs, e.2))), d) := by
  simp only [Stmt.apply_on_state, if_pos h1, if_pos h2, if_pos h3, if_pos h4,
    if_pos h5, if_pos h6, if_pos h7]

theorem mem_borrow_acc (lhs rhs : VPlace) (m : PermMap)
    (hl : ∀ e ∈ m, (e : VPlace × ℚ).1.hasPfx lhs = false) (e : VPlace × ℚ) :
    e ∈ mapInsertAll
        (mapRemoveWhere (mapRemoveWhere (mapRemoveWhere m
            fun p => p.hasProperPfx lhs) fun p => p.hasProperPfx rhs)
          fun p => p.hasPfx lhs)
        ((mapSelect m fun p => p.hasPfx rhs).image
          fun b => (b.1.replacePfx rhs lhs, b.2))
      ↔ (e ∈ m ∧ e.1.hasProperPfx rhs = false)
        ∨ ∃ b ∈ m, b.1.hasPfx rhs = true
            ∧ e = (b.1.replacePfx rhs lhs, b.2) := by
  simp only [mem_mapInsertAll, mem_mapRemoveWhere, mem_mapSelect,
    Finset.mem_image]
  constructor
  · rintro (⟨⟨⟨⟨hm, h1⟩, h2⟩, h3⟩, h4⟩ | ⟨b, ⟨hb, hbr⟩, heq⟩)
    · exact Or.inl ⟨hm, h2⟩
    · exact Or.inr ⟨b, hb, hbr, heq.symm⟩
  · rintro (⟨hm, hpr⟩ | ⟨b, hb, hbr, rfl⟩)
    · refine Or.inl ⟨⟨⟨⟨hm,
        VPlace.proper_false_of_hasPfx_false (hl e hm)⟩, hpr⟩, hl e hm⟩, ?_⟩
      rintro ⟨a, ⟨b, ⟨hb, hbr⟩, rfl⟩, hae⟩
      have h5 : (b.1.replacePfx rhs lhs).hasPfx lhs = true :=
        VPlace.replacePfx_hasPfx lhs hbr
      have h6 : b.1.replacePfx rhs lhs = e.1 := hae
      rw [h6, hl e hm] at h5
      exact Bool.noConfusion h5
    · exact Or.inr ⟨b, ⟨hb, hbr⟩, rfl⟩

theorem mem_borrow_pred (lhs rhs : VPlace) (m : PermMap)
    (hl : ∀ e ∈ m, (e : VPlace × ℚ).1.hasPfx lhs = false) (e : VPlace × ℚ) :
    e ∈ mapInsertAll
        (mapRemoveWhere (mapRemoveWhere (mapRemoveWhere m
            fun p => p.hasPfx lhs) fun p => p.hasPfx rhs)
          fun p => p.hasPfx lhs)
        ((mapSelect m fun p => p.hasPfx rhs).image
          fun b => (b.1.replacePfx rhs lhs, b.2))
      ↔ (e ∈ m ∧ e.1.hasPfx rhs = false)
        ∨ ∃ b ∈ m, b.1.hasPfx rhs = true
            ∧ e = (b.1.replacePfx rhs lhs, b.2) := by
  simp only [mem_mapInsertAll, mem_mapRemoveWhere, mem_mapSelect,
    Finset.mem_image]
  constructor
  · rintro (⟨⟨⟨⟨hm, h1⟩, h2⟩, h3⟩, h4⟩ | ⟨b, ⟨hb, hbr⟩, heq⟩)
    · exact Or.inl ⟨hm, h2⟩
    · exact Or.inr ⟨b, hb, hbr, heq.symm⟩
  · rintro (⟨hm, hpr⟩ | ⟨b, hb, hbr, rfl⟩)
    · refine Or.inl ⟨⟨⟨⟨hm, hl e hm⟩, hpr⟩, hl e hm⟩, ?_⟩
      rintro ⟨a, ⟨b, ⟨hb, hbr⟩, rfl⟩, hae⟩
      have h5 : (b.1.replacePfx rhs lhs).hasPfx lhs = true :=
        VPlace.replacePfx_hasPfx lhs hbr
      have h6 : b.1.replacePfx rhs lhs = e.1 := hae
      rw [h6, hl e hm] at h5
      exact Bool.noConfusion h5
    · exact Or.inr ⟨b, ⟨hb, hbr⟩, rfl⟩

theorem assign_borrow_spec (tyOf : VPlace → VirTy)
    (preds : String → Option VirPred) (lhs rhs : VPlace) (s : State)
    (d : Finset Perm) (htyr : (tyOf rhs).is_ref = true)
    (hmr : ¬ s.pfxOfSomeMoved rhs) (hml : ¬ s.pfxOfSomeMoved lhs)
    (hpp : ∀ q ∈ rhs.allProperPfxs, ¬ s.contains_pred q)
    (hlacc : ∀ e ∈ s.acc, (e : VPlace × ℚ).1.hasPfx lhs = false)
    (hlpred : ∀ e ∈ s.pred, (e : VPlace × ℚ).1.hasPfx lhs = false) :
    ∃ S1, (Stmt.assign lhs (VExpr.place rhs)
        AssignKind.mutableBorrow).apply_on_state tyOf preds s d
          = some (S1, d)
      ∧ (∀ e : VPlace × ℚ, e ∈ S1.acc ↔
          (e ∈ s.acc ∧ e.1.hasProperPfx rhs = false)
          ∨ ∃ b ∈ s.acc, b.1.hasPfx rhs = true
              ∧ e = (b.1.replacePfx rhs lhs, b.2))
      ∧ (∀ e : VPlace × ℚ, e ∈ S1.pred ↔
          (e ∈ s.pred ∧ e.1.hasPfx rhs = false)
          ∨ ∃ b ∈ s.pred, b.1.hasPfx rhs = true
              ∧ e = (b.1.replacePfx rhs lhs, b.2))
      ∧ S1.moved = s.moved := by
  have happ := assign_borrow_apply tyOf preds lhs rhs s d htyr hmr hpp
  have hselp : mapSelect s.pred (fun p => p.hasPfx lhs) = ∅ := by
    rw [Finset.eq_empty_iff_forall_not_mem]
    intro e he
    have h := mem_mapSelect.mp he
    have h3 : e.1.hasPfx lhs = true := h.2
    rw [hlpred e h.1] at h3
    exact Bool.noConfusion h3
  have hsela : mapSelect s.acc (fun p => p.hasProperPfx lhs) = ∅ := by
    rw [Finset.eq_empty_iff_forall_not_mem]
    intro e he
    have h := mem_mapSelect.mp he
    have h3 : e.1.hasProperPfx lhs = true := h.2
    rw [VPlace.proper_false_of_hasPfx_false (hlacc e h.1)] at h3
    exact Bool.noConfusion h3
  rw [hselp, hsela, Finset.image_empty, Finset.image_empty,
    Finset.union_empty, Finset.union_empty] at happ
  refine ⟨_, happ, ?_, ?_, ?_⟩
  · intro e
    exact mem_borrow_acc lhs rhs s.acc hlacc e
  · intro e
    exact mem_borrow_pred lhs rhs s.pred hlpred e
  · show Finset.filter (fun m => m.hasPfx lhs = false) s.moved = s.moved
    refine Finset.filter_true_of_mem ?_
    intro m hm
    cases hval : m.hasPfx lhs with
    | false => rfl
    | true => exact absurd ⟨m, hm, hval⟩ hml

/-- Counterexample for C4: Assign(y, x, Move) on access map exactly
`x : 1` with empty predicate map and moved set yields access map
`x : 1, y : 1` — the access permission on `x` itself is retained, because the
Move arm removes only access permissions on proper descendants of the
right-hand side — so the claimed resulting access map `y : 1` with `x`
absent is wrong. -/
theorem c4_counterexample :
    resultIs ((Stmt.assign vy (VExpr.place vx) AssignKind.move).apply_on_state
        tyAllRef noPreds ⟨{(vx, 1)}, ∅, ∅⟩ ∅)
      ⟨{(vx, 1), (vy, 1)}, ∅, {vx}⟩ ∅
    ∧ ({(vx, 1), (vy, 1)} : PermMap) ≠ {(vy, 1)}
    ∧ (vx, (1 : ℚ)) ∈ ({(vx, 1), (vy, 1)} : PermMap) :=
  ⟨by decide, by decide, by decide⟩

/-- Claim C4 (amended): for a Move assignment with prefix-unrelated sides,
the right-hand side is marked moved; every predicate permission rooted at rhs
is removed and reappears with the prefix rewritten rhs→lhs; every access
permission rooted at rhs reappears rewritten likewise, with the access
permissions strictly inside rhs removed but the access permission on rhs
itself retained.  In particular Assign(y, x, Move) from access map `x : 1`
yields access map `x : 1, y : 1` and moved set containing `x`. -/
theorem c4_assign_move_amended (tyOf : VPlace → VirTy)
    (preds : String → Option VirPred) (lhs rhs_place : VPlace) (s : State)
    (d : Finset Perm) (r : State × Finset Perm)
    (hur1 : lhs.hasPfx rhs_place = false)
    (hur2 : rhs_place.hasPfx lhs = false)
    (h : (Stmt.assign lhs (VExpr.place rhs_place)
        AssignKind.move).apply_on_state tyOf preds s d = some r) :
    rhs_place ∈ r.1.moved
    ∧ (∀ p f, (p, f) ∈ s.pred → p.hasPfx rhs_place = true →
        (p.replacePfx rhs_place lhs, f) ∈ r.1.pred ∧ (p, f) ∉ r.1.pred)
    ∧ (∀ p f, (p, f) ∈ s.acc → p.hasPfx rhs_place = true →
        (p.replacePfx rhs_place lhs, f) ∈ r.1.acc
        ∧ (p.hasProperPfx rhs_place = true → (p, f) ∉ r.1.acc))
    ∧ (∀ f, (rhs_place, f) ∈ s.acc → (rhs_place, f) ∈ r.1.acc) := by
  simp only [Stmt.apply_on_state] at h
  cases hmark : assignMarkRhs tyOf AssignKind.move (VExpr.place rhs_place) s <;>
    rw [hmark] at h
  · exact absurd h (by simp)
  case some s1 =>
  obtain ⟨h1, h2, h3, rfl⟩ := assignMarkRhs_move_eq tyOf rhs_place s s1 hmark
  simp only [Option.some_bind, assignMoveRhsToLhs, if_pos h1] at h
  obtain rfl := Option.some.inj h
  refine ⟨?_, fun p f hp hpfx => ⟨?_, ?_⟩, fun p f hp hpfx => ⟨?_, ?_⟩,
    fun f hp => ?_⟩
  · simp only [State.insert_all_pred, State.insert_all_acc,
      State.remove_pred_matching_place, State.remove_acc_matching_place,
      State.remove_moved_matching, State.insert_moved]
    exact Finset.mem_filter.mpr ⟨Finset.mem_insert_self _ _, by simpa using hur2⟩
  · simp only [State.insert_all_pred, State.insert_all_acc,
      State.remove_pred_matching_place, State.remove_acc_matching_place,
      State.remove_moved_matching, State.insert_moved, mem_mapInsertAll]
    exact Or.inr (Finset.mem_image.mpr ⟨(p, f),
      mem_mapSelect.mpr ⟨hp, hpfx⟩, rfl⟩)
  · intro hcon
    simp only [State.insert_all_pred, State.insert_all_acc,
      State.remove_pred_matching_place, State.remove_acc_matching_place,
      State.remove_moved_matching, State.insert_moved, mem_mapInsertAll,
      mem_mapRemoveWhere, Finset.mem_image, mem_mapSelect] at hcon
    rcases hcon with ⟨⟨⟨⟨_, _⟩, habs⟩, _⟩, _⟩ | ⟨a, ⟨_, hapfx⟩, heq⟩
    · simp [hpfx] at habs
    · have hple : (a.1.replacePfx rhs_place lhs).hasPfx lhs = true :=
        VPlace.replacePfx_hasPfx lhs hapfx
      have hpe : a.1.replacePfx rhs_place lhs = p := congrArg Prod.fst heq
      rw [hpe] at hple
      rw [VPlace.pfx_unrelated hpfx hur1 hur2] at hple
      cases hple
  · simp only [State.insert_all_pred, State.insert_all_acc,
      State.remove_pred_matching_place, State.remove_acc_matching_place,
      State.remove_moved_matching, State.insert_moved, mem_mapInsertAll]
    exact Or.inr (Finset.mem_image.mpr ⟨(p, f),
      mem_mapSelect.mpr ⟨hp, hpfx⟩, rfl⟩)
  · intro hproper hcon
    simp only [State.insert_all_pred, State.insert_all_acc,
      State.remove_pred_matching_place, State.remove_acc_matching_place,
      State.remove_moved_matching, State.insert_moved, mem_mapInsertAll,
      mem_mapRemoveWhere, Finset.mem_image, mem_mapSelect] at hcon
    rcases hcon with ⟨⟨⟨⟨_, _⟩, habs⟩, _⟩, _⟩ | ⟨a, ⟨_, hapfx⟩, heq⟩
    · simp [hproper] at habs
    · have hple : (a.1.replacePfx rhs_place lhs).hasPfx lhs = true :=
        VPlace.replacePfx_hasPfx lhs hapfx
      have hpe : a.1.replacePfx rhs_place lhs = p := congrArg Prod.fst heq
      rw [hpe] at hple
      rw [VPlace.pfx_unrelated hpfx hur1 hur2] at hple
      cases hple
  · simp only [State.insert_all_pred, State.insert_all_acc,
      State.remove_pred_matching_place, State.remove_acc_matching_place,
      State.remove_moved_matching, State.insert_moved, mem_mapInsertAll,
      mem_mapRemoveWhere]
    refine Or.inl ⟨⟨⟨⟨hp, ?_⟩, ?_⟩, ?_⟩, ?_⟩
    · simpa using VPlace.proper_false_of_hasPfx_false hur2
    · simpa using VPlace.hasProperPfx_self rhs_place
    · simpa using hur2
    · rintro ⟨a, ha, heq⟩
      obtain ⟨b, hb, rfl⟩ := Finset.mem_image.mp ha
      have hple : (b.1.replacePfx rhs_place lhs).hasPfx lhs = true :=
        VPlace.replacePfx_hasPfx lhs (mem_mapSelect.mp hb).2
      have heq2 : b.1.replacePfx rhs_place lhs = rhs_place := heq
      rw [heq2, hur2] at hple
      cases hple

/-- Witness for C4: the amended description applied at the concrete Move
assignment of the counterexample — `x` is marked moved. -/
theorem c4_witness :
    vx ∈ (⟨{(vx, 1), (vy, 1)}, ∅, {vx}⟩ : State).moved := by
  have h : (Stmt.assign vy (VExpr.place vx) AssignKind.move).apply_on_state
      tyAllRef noPreds ⟨{(vx, 1)}, ∅, ∅⟩ ∅
      = some (⟨{(vx, 1), (vy, 1)}, ∅, {vx}⟩, ∅) :=
    (resultIs_iff _ _ _).mp (by decide)
  exact (c4_assign_move_amended tyAllRef noPreds vy vx ⟨{(vx, 1)}, ∅, ∅⟩ ∅ _
    (by decide) (by decide) h).1

/-- Counterexample for C7: a mutable-borrow assignment followed immediately
by the matching expiry does not restore the original state when the original
state holds an access permission on the right-hand side itself: starting from
access map `x : 1`, the round trip ends with access map `x : 1, y : 1` — the
access permission created on the left-hand side is never removed, because the
expiry removes only proper-descendant access permissions of lhs. -/
theorem c7_counterexample :
    resultIs (applySeq tyAllRef noPreds
        [Stmt.assign vy (VExpr.place vx) AssignKind.mutableBorrow,
         Stmt.expireBorrow vy vx] ⟨{(vx, 1)}, ∅, ∅⟩ ∅)
      ⟨{(vx, 1), (vy, 1)}, ∅, ∅⟩ ∅
    ∧ (⟨{(vx, 1), (vy, 1)}, ∅, ∅⟩ : State) ≠ ⟨{(vx, 1)}, ∅, ∅⟩ :=
  ⟨by decide, by decide⟩

/-- Claim C7 (amended): Assign(lhs, rhs, MutableBorrow) immediately followed
by ExpireBorrow(lhs, rhs) restores exactly the prior permission state —
access map, predicate map and moved set, with the dropped accumulator also
unchanged — provided, beyond the MutableBorrow preconditions, that lhs and
rhs are prefix-unrelated and the original state holds no access permission on
rhs itself, no access or predicate permission rooted at lhs, and no moved
marker rooted at lhs. -/
theorem c7_borrow_expire_roundtrip (tyOf : VPlace → VirTy)
    (preds : String → Option VirPred) (lhs rhs : VPlace) (s : State)
    (d : Finset Perm)
    (htyr : (tyOf rhs).is_ref = true) (htyl : tyOf lhs = tyOf rhs)
    (hur1 : lhs.hasPfx rhs = false) (hur2 : rhs.hasPfx lhs = false)
    (hmr : ¬ s.pfxOfSomeMoved rhs) (hml : ¬ s.pfxOfSomeMoved lhs)
    (hpp : ∀ q ∈ rhs.allProperPfxs, ¬ s.contains_pred q)
    (hlacc : ∀ e ∈ s.acc, (e : VPlace × ℚ).1.hasPfx lhs = false)
    (hlpred : ∀ e ∈ s.pred, (e : VPlace × ℚ).1.hasPfx lhs = false)
    (hras : ∀ e ∈ s.acc, (e : VPlace × ℚ).1 ≠ rhs) :
    applySeq tyOf preds
      [Stmt.assign lhs (VExpr.place rhs) AssignKind.mutableBorrow,
       Stmt.expireBorrow lhs rhs] s d = some (s, d) := by
  obtain ⟨S1, h1, hacc1, hpred1, hmov1⟩ :=
    assign_borrow_spec tyOf preds lhs rhs s d htyr hmr hml hpp hlacc hlpred
  have hP4 : ¬ S1.properPfxOfSomeAcc rhs := by
    rintro ⟨e, he, hp⟩
    rcases (hacc1 e).mp he with ⟨hm, hpr⟩ | ⟨b, hb, hbr, rfl⟩
    · rw [hpr] at hp
      exact Bool.noConfusion hp
    · have h6 : (b.1.replacePfx rhs lhs).hasPfx rhs = true :=
        VPlace.hasPfx_of_proper hp
      have h5 : (b.1.replacePfx rhs lhs).hasPfx lhs = true :=
        VPlace.replacePfx_hasPfx lhs hbr
      rw [VPlace.pfx_unrelated h6 hur1 hur2] at h5
      exact Bool.noConfusion h5
  have hP5 : ¬ S1.pfxOfSomePred rhs := by
    rintro ⟨e, he, hp⟩
    rcases (hpred1 e).mp he with ⟨hm, hpr⟩ | ⟨b, hb, hbr, rfl⟩
    · rw [hpr] at hp
      exact Bool.noConfusion hp
    · have h6 : (b.1.replacePfx rhs lhs).hasPfx rhs = true := hp
      have h5 : (b.1.replacePfx rhs lhs).hasPfx lhs = true :=
        VPlace.replacePfx_hasPfx lhs hbr
      rw [VPlace.pfx_unrelated h6 hur1 hur2] at h5
      exact Bool.noConfusion h5
  have hP6 : ¬ S1.pfxOfSomeMoved rhs := by
    rintro ⟨m, hm, hmp⟩
    exact hmr ⟨m, hmov1 ▸ hm, hmp⟩
  have hP7 : ¬ S1.pfxOfSomeMoved lhs := by
    rintro ⟨m, hm, hmp⟩
    exact hml ⟨m, hmov1 ▸ hm, hmp⟩
  have htyl2 : (tyOf lhs).is_ref = true := by rw [htyl]; exact htyr
  have h2 := expire_apply tyOf preds lhs rhs S1 d htyl2 htyr htyl hP4 hP5
    hP6 hP7
  show (applySeq tyOf preds _ s d) = some (s, d)
  simp only [applySeq, h1, Option.some_bind, h2]
  refine congrArg (fun st => some (st, d)) ?_
  refine stateExt ?_ ?_ ?_
  · apply Finset.ext
    intro e
    simp only [State.insert_all_pred, State.insert_all_acc,
      State.remove_pred_matching_place, State.remove_acc_matching_place,
      State.remove_moved_matching]
    simp only [mem_mapInsertAll, mem_mapRemoveWhere, mem_mapSelect,
      Finset.mem_image]
    constructor
    · rintro (⟨⟨⟨hS1, hplhs⟩, hprhs⟩, hkey⟩ | ⟨c, ⟨hc, hcl⟩, rfl⟩)
      · rcases (hacc1 e).mp hS1 with ⟨hm, _⟩ | ⟨b, hb, hbr, rfl⟩
        · exact hm
        · have hbproper : b.1.hasProperPfx rhs = true :=
            VPlace.hasProperPfx_iff.mpr ⟨hbr, hras b hb⟩
          have himg : (b.1.replacePfx rhs lhs).hasProperPfx lhs = true :=
            VPlace.replacePfx_proper lhs hbproper
          have hplhs2 : (b.1.replacePfx rhs lhs).hasProperPfx lhs = false :=
            hplhs
          rw [hplhs2] at himg
          exact Bool.noConfusion himg
      · rcases (hacc1 c).mp hc with ⟨hm, _⟩ | ⟨b, hb, hbr, rfl⟩
        · have hfalse := hlacc c hm
          have hcl2 : c.1.hasPfx lhs = true := hcl
          rw [hfalse] at hcl2
          exact Bool.noConfusion hcl2
        · have hre : (b.1.replacePfx rhs lhs).replacePfx lhs rhs = b.1 :=
            VPlace.replacePfx_inv lhs hbr
          show ((b.1.replacePfx rhs lhs).replacePfx lhs rhs, b.2) ∈ s.acc
          rw [hre]
          exact hb
    · intro hm
      cases hcase : e.1.hasPfx rhs with
      | false =>
        refine Or.inl ⟨⟨⟨(hacc1 e).mpr (Or.inl ⟨hm,
          VPlace.proper_false_of_hasPfx_false hcase⟩),
          VPlace.proper_false_of_hasPfx_false (hlacc e hm)⟩,
          VPlace.proper_false_of_hasPfx_false hcase⟩, ?_⟩
        rintro ⟨a, ⟨c, ⟨hc, hcl⟩, rfl⟩, hae⟩
        have h5 : (c.1.replacePfx lhs rhs).hasPfx rhs = true :=
          VPlace.replacePfx_hasPfx rhs hcl
        have h6 : c.1.replacePfx lhs rhs = e.1 := hae
        rw [h6, hcase] at h5
        exact Bool.noConfusion h5
      | true =>
        refine Or.inr ⟨(e.1.replacePfx rhs lhs, e.2),
          ⟨(hacc1 _).mpr (Or.inr ⟨e, hm, hcase, rfl⟩),
            VPlace.replacePfx_hasPfx lhs hcase⟩, ?_⟩
        show ((e.1.replacePfx rhs lhs).replacePfx lhs rhs, e.2) = e
        rw [VPlace.replacePfx_inv lhs hcase]
  · apply Finset.ext
    intro e
    simp only [State.insert_all_pred, State.insert_all_acc,
      State.remove_pred_matching_place, State.remove_acc_matching_place,
      State.remove_moved_matching]
    simp only [mem_mapInsertAll, mem_mapRemoveWhere, mem_mapSelect,
      Finset.mem_image]
    constructor
    · rintro (⟨⟨⟨hS1, hplhs⟩, hprhs⟩, hkey⟩ | ⟨c, ⟨hc, hcl⟩, rfl⟩)
      · rcases (hpred1 e).mp hS1 with ⟨hm, _⟩ | ⟨b, hb, hbr, rfl⟩
        · exact hm
        · have himg : (b.1.replacePfx rhs lhs).hasPfx lhs = true :=
            VPlace.replacePfx_hasPfx lhs hbr
          have hplhs2 : (b.1.replacePfx rhs lhs).hasPfx lhs = false := hplhs
          rw [hplhs2] at himg
          exact Bool.noConfusion himg
      · rcases (hpred1 c).mp hc with ⟨hm, _⟩ | ⟨b, hb, hbr, rfl⟩
        · have hfalse := hlpred c hm
          have hcl2 : c.1.hasPfx lhs = true := hcl
          rw [hfalse] at hcl2
          exact Bool.noConfusion hcl2
        · have hre : (b.1.replacePfx rhs lhs).replacePfx lhs rhs = b.1 :=
            VPlace.replacePfx_inv lhs hbr
          show ((b.1.replacePfx rhs lhs).replacePfx lhs rhs, b.2) ∈ s.pred
          rw [hre]
          exact hb
    · intro hm
      cases hcase : e.1.hasPfx rhs with
      | false =>
        refine Or.inl ⟨⟨⟨(hpred1 e).mpr (Or.inl ⟨hm, hcase⟩),
          hlpred e hm⟩, rfl⟩, ?_⟩
        rintro ⟨a, ⟨c, ⟨hc, hcl⟩, rfl⟩, hae⟩
        have h5 : (c.1.replacePfx lhs rhs).hasPfx rhs = true :=
          VPlace.replacePfx_hasPfx rhs hcl
        have h6 : c.1.replacePfx lhs rhs = e.1 := hae
        rw [h6, hcase] at h5
        exact Bool.noConfusion h5
      | true =>
        refine Or.inr ⟨(e.1.replacePfx rhs lhs, e.2),
          ⟨(hpred1 _).mpr (Or.inr ⟨e, hm, hcase, rfl⟩),
            VPlace.replacePfx_hasPfx lhs hcase⟩, ?_⟩
        show ((e.1.replacePfx rhs lhs).replacePfx lhs rhs, e.2) = e
        rw [VPlace.replacePfx_inv lhs hcase]
  · show Finset.filter (fun m => m.hasPfx rhs = false) S1.moved = s.moved
    rw [hmov1]
    refine Finset.filter_true_of_mem ?_
    intro m hm
    cases hval : m.hasPfx rhs with
    | false => rfl
    | true => exact absurd ⟨m, hm, hval⟩ hmr

/-- Witness for C7: the round trip on access map `x.f : 1` (no access
permission on `x` itself, nothing rooted at `y`) restores the state
exactly. -/
theorem c7_witness :
    applySeq tyAllRef noPreds
      [Stmt.assign vy (VExpr.place vx) AssignKind.mutableBorrow,
       Stmt.expireBorrow vy vx] ⟨{(vxf, 1)}, ∅, ∅⟩ ∅
      = some (⟨{(vxf, 1)}, ∅, ∅⟩, ∅) :=
  c7_borrow_expire_roundtrip tyAllRef noPreds vy vx ⟨{(vxf, 1)}, ∅, ∅⟩ ∅
    (by decide) (by decide) (by decide) (by decide) (by decide) (by decide)
    (by decide) (by decide) (by decide) (by decide)

/-- Claim C9: the ExpireBorrow arm never modifies the dropped accumulator —
whenever it succeeds, the dropped set after the statement equals the dropped
set before it. -/
theorem c9_expire_borrow_preserves_dropped (tyOf : VPlace → VirTy)
    (preds : String → Option VirPred) (lhs rhs : VPlace) (s : State)
    (d : Finset Perm) (r : State × Finset Perm) :
    (Stmt.expireBorrow lhs rhs).apply_on_state tyOf preds s d = some r →
      r.2 = d := by
  intro h
  simp only [Stmt.apply_on_state] at h
  split_ifs at h <;> first
    | (cases h; rfl)
    | exact absurd h (by simp)

/-- Witness for C9: a concrete expiry succeeds and leaves the one-element
dropped accumulator untouched. -/
theorem c9_witness :
    ({Perm.acc vt (1 : ℚ)} : Finset Perm) = {Perm.acc vt 1} := by
  have h : (Stmt.expireBorrow vy vx).apply_on_state tyAllRef noPreds
      ⟨{(vy, 1)}, ∅, ∅⟩ {Perm.acc vt 1}
      = some (⟨{(vy, 1), (vx, 1)}, ∅, ∅⟩, {Perm.acc vt 1}) :=
    (resultIs_iff _ _ _).mp (by decide)
  exact c9_expire_borrow_preserves_dropped tyAllRef noPreds vy vx
    ⟨{(vy, 1)}, ∅, ∅⟩ {Perm.acc vt 1} _ h

end PrustiModel
